import Mathlib

/-!
Verification development for the legal document analyzer's core text pipeline
(`backend/app/utils/cache.py`, `backend/app/nlp/qa.py`,
`backend/app/utils/enhanced_models.py`).

The Python code is shallowly embedded: text is modelled as `List Char`
(Python `str`), Python floats as `ℚ` (every float constant and comparison
appearing in the relevant code paths is exact at the sizes involved, noted
at each use), dictionaries as insertion-ordered association lists, and
fallible code as `Except`.  Opaque ML-model invocations are passed in as
function parameters, mirroring how the code treats them as black boxes.
-/

/-! ## Character classes (ASCII, matching Python `str.split`, `str.strip`,
and the `re` character classes used by the source) -/

/-- Whitespace as recognised by Python `str.split()` / `str.strip()` / `\s`
(ASCII range, which is all the source's regexes rely on). -/
def isWS (c : Char) : Bool :=
  c = ' ' || c = '\t' || c = '\n' || c = '\x0d' || c = '\x0b' || c = '\x0c'

/-- Sentence-terminating punctuation `[.!?]` from
`_split_into_sentences` / `_ensure_complete_summary`. -/
def isPunctCh (c : Char) : Bool :=
  c = '.' || c = '!' || c = '?'

/-- Regex class `[A-Z]`. -/
def isUpperCh (c : Char) : Bool :=
  'A' ≤ c && c ≤ 'Z'

/-- Regex class `\d` (ASCII digits). -/
def isDigitCh (c : Char) : Bool :=
  '0' ≤ c && c ≤ '9'

/-- Regex class `\w` (word character), used for `\b` boundaries. -/
def isWordCh (c : Char) : Bool :=
  isDigitCh c || isUpperCh c || ('a' ≤ c && c ≤ 'z') || c = '_'

/-- Python `str.lower()` on a character (ASCII case folding suffices for the
source's keyword checks). -/
def lowerCh (c : Char) : Char :=
  if 'A' ≤ c && c ≤ 'Z' then Char.ofNat (c.toNat + 32) else c

/-- Python `str.lower()`. -/
def lowerL (l : List Char) : List Char := l.map lowerCh

/-! ## Python string primitives -/

/-- Does `pre` occur at the start of `l`? (Python `str.startswith`.) -/
def startsWithL : List Char → List Char → Bool
  | [], _ => true
  | _ :: _, [] => false
  | p :: ps, c :: cs => p = c && startsWithL ps cs

/-- Case-insensitive prefix test (`pre` given in lowercase). -/
def startsWithCI : List Char → List Char → Bool
  | [], _ => true
  | _ :: _, [] => false
  | p :: ps, c :: cs => p = lowerCh c && startsWithCI ps cs

/-- Python `needle in haystack` substring test. -/
def containsSub (needle : List Char) : List Char → Bool
  | [] => startsWithL needle []
  | c :: cs => startsWithL needle (c :: cs) || containsSub needle cs

/-- Python `str.strip()`: drop leading and trailing whitespace. -/
def pyStrip (l : List Char) : List Char :=
  ((l.dropWhile isWS).reverse.dropWhile isWS).reverse

/-- Accumulator for `pyWords`; `cur` is the current (reversed) in-progress
word. -/
def pyWordsAux : List Char → List Char → List (List Char)
  | cur, [] => if cur.isEmpty then [] else [cur.reverse]
  | cur, c :: cs =>
    if isWS c then
      if cur.isEmpty then pyWordsAux [] cs else cur.reverse :: pyWordsAux [] cs
    else
      pyWordsAux (c :: cur) cs

/-- Python `str.split()` with no argument: split on whitespace runs,
dropping empty pieces. -/
def pyWords (l : List Char) : List (List Char) := pyWordsAux [] l

/-- Python `" ".join(pieces)`. -/
def joinSp : List (List Char) → List Char
  | [] => []
  | [s] => s
  | s :: t :: rest => s ++ ' ' :: joinSp (t :: rest)

/-- The tail of a space-join: `joinSp (s :: l) = s ++ joinOnto l`
(one leading space per further piece).  Used to reason about the sentence
scanners one sentence at a time. -/
def joinOnto : List (List Char) → List Char
  | [] => []
  | s :: rest => ' ' :: (s ++ joinOnto rest)

/-! ## `backend/app/utils/cache.py` — `QACache` and `cache_qa_result`

`QACache._cache` is a Python `dict`, i.e. an insertion-ordered map; it is
modelled as an association list in insertion order (`dictInsert` below has
exactly Python's `d[k] = v` semantics: update in place, else append).
`_generate_key` MD5-hashes `f"{question}:{context}"`; the hash is modelled
by the hashed content itself (the key derivation is deterministic in
`(question, context)`, which is all the claims use). -/

/-- `QACache._generate_key`: deterministic key derived from the
concatenated pair (the MD5 step is modelled by the content string). -/
def generate_key (question context : String) : String :=
  question ++ ":" ++ context

/-- Python `d[k] = v` on an insertion-ordered dict: overwrite in place if
the key is present, otherwise append at the end. -/
def dictInsert {V : Type} (l : List (String × V)) (k : String) (v : V) :
    List (String × V) :=
  if l.any (fun p => p.1 == k) then
    l.map (fun p => if p.1 == k then (k, v) else p)
  else
    l ++ [(k, v)]

/-- The state of `QACache`: bound plus insertion-ordered entries. -/
structure QACache (V : Type) where
  max_size : Nat
  entries : List (String × V)

/-- `QACache(max_size=n)` — fresh empty cache. -/
def QACache.empty (V : Type) (n : Nat) : QACache V := ⟨n, []⟩

/-- `QACache.get`. -/
def QACache.get {V : Type} (σ : QACache V) (question context : String) :
    Option V :=
  (σ.entries.find? (fun p => p.1 == generate_key question context)).map
    (fun p => p.2)

/-- `QACache.set`: if the cache is full (`len >= max_size`), pop the
oldest-inserted entry (`next(iter(dict))` is the first key in insertion
order), then insert. -/
def QACache.set {V : Type} (σ : QACache V) (question context : String)
    (v : V) : QACache V :=
  let base :=
    if σ.max_size ≤ σ.entries.length then σ.entries.drop 1 else σ.entries
  { σ with entries := dictInsert base (generate_key question context) v }

/-- `QACache.clear`. -/
def QACache.clear {V : Type} (σ : QACache V) : QACache V :=
  { σ with entries := [] }

/-- The `cache_qa_result` decorator applied to a (possibly raising)
function `f`.  Returns the call's outcome, the cache after the call, and
whether `f` was actually invoked (`false` on a cache hit).  The Python
wrapper tests `cached_result is not None`; cached values are QA result
dicts, never `None`, so a stored entry is always a hit. -/
def cache_qa_result {E V : Type} (f : String → String → Except E V)
    (question context : String) (σ : QACache V) :
    Except E V × QACache V × Bool :=
  match σ.get question context with
  | some v => (.ok v, σ, false)
  | none =>
    match f question context with
    | .ok v => (.ok v, σ.set question context v, true)
    | .error e => (.error e, σ, true)

/-- One externally visible cache operation, for stating the C7 invariant
over arbitrary operation sequences. -/
inductive CacheOp (V : Type) where
  | opGet (question context : String)
  | opSet (question context : String) (v : V)

/-- Effect of one operation on the cache (`get` never mutates). -/
def cacheStep {V : Type} (σ : QACache V) : CacheOp V → QACache V
  | .opGet _ _ => σ
  | .opSet q c v => σ.set q c v

/-- Run a sequence of `get`/`set` operations from the empty cache with the
given bound. -/
def runOps {V : Type} (m : Nat) (ops : List (CacheOp V)) : QACache V :=
  ops.foldl cacheStep (QACache.empty V m)

/-! ## `backend/app/nlp/qa.py` -/

/-- Split on the literal separator `"\n\n"` (Python
`context.split('\n\n')`), left-to-right, non-overlapping. `cur` is the
piece being accumulated. -/
def splitNNAux : List Char → List Char → List (List Char)
  | cur, '\n' :: '\n' :: rest => cur :: splitNNAux [] rest
  | cur, c :: rest => splitNNAux (cur ++ [c]) rest
  | cur, [] => [cur]

/-- Python `s.split('\n\n')`. -/
def splitNN (l : List Char) : List (List Char) := splitNNAux [] l

/-- Split on the literal separator `". "` (Python `para.split('. ')`). -/
def splitDSAux : List Char → List Char → List (List Char)
  | cur, '.' :: ' ' :: rest => cur :: splitDSAux [] rest
  | cur, c :: rest => splitDSAux (cur ++ [c]) rest
  | cur, [] => [cur]

/-- Python `s.split('. ')`. -/
def splitDS (l : List Char) : List (List Char) := splitDSAux [] l

/-- Python `"\n\n".join(pieces)` — for relating chunks back to the text. -/
def joinNN : List (List Char) → List Char
  | [] => []
  | [p] => p
  | p :: q :: rest => p ++ '\n' :: '\n' :: joinNN (q :: rest)

/-- The chunking stage of `get_top_n_chunks` (qa.py lines 27-39): split the
context into paragraphs on `'\n\n'`; a paragraph of more than 100 words is
replaced by its `'. '`-split sentences; drop chunks that are empty after
stripping. -/
def get_chunks (context : List Char) : List (List Char) :=
  let paragraphs := splitNN context
  let chunks := paragraphs.foldl
    (fun acc para =>
      if 100 < (pyWords para).length then acc ++ splitDS para
      else acc ++ [para])
    []
  chunks.filter (fun ch => !(pyStrip ch).isEmpty)

/-- The QA result dict built by `answer_question` (fields `answer`,
`score`, `start`, `end`; `end` is renamed `stop` as `end` is reserved). -/
structure QAAnswer where
  answer : String
  score : ℚ
  start : Nat
  stop : Nat
deriving DecidableEq, Repr

/-- The literal message returned for blank / too-short contexts. -/
def too_short_message : String :=
  "The provided context is too short to generate a meaningful answer."

/-- `answer_question` (qa.py lines 54-101) without its cache decorator.
`modelLoaded` stands for `qa_model is not None and qa_tokenizer is not
None`; `infer` is the opaque tokenize/generate/decode composite for the
chunks selected from this context (chunk selection via TF-IDF is part of
the opaque inference, as it invokes sklearn).  Returns the outcome
(`Except.error` = the re-raised exception) and whether the QA model was
invoked.  The score is `0.9` for a non-blank generated answer else `0.0`
(floats exact here). -/
def answer_question_core (modelLoaded : Bool)
    (infer : String → String → Except Unit String)
    (question context : String) : Except Unit QAAnswer × Bool :=
  if !modelLoaded then (.error (), false)
  else if context = "" || (pyStrip context.data).length < 10 then
    (.ok ⟨too_short_message, 0, 0, 0⟩, false)
  else
    match infer question context with
    | .error e => (.error e, true)
    | .ok ans =>
      (.ok ⟨ans, if (pyStrip ans.data).isEmpty then 0 else 9/10, 0, 0⟩, true)

/-- The decorated `answer_question = cache_qa_result(answer_question)`:
consult the shared cache first, otherwise run the body and store a
successful result. -/
def answer_question (modelLoaded : Bool)
    (infer : String → String → Except Unit String)
    (question context : String) (σ : QACache QAAnswer) :
    Except Unit QAAnswer × QACache QAAnswer × Bool :=
  cache_qa_result
    (fun q c => (answer_question_core modelLoaded infer q c).1)
    question context σ

/-! ## `backend/app/utils/enhanced_models.py` — answer ensembling (C1) -/

/-- `np.argmax`: index of the first maximal element (`0` on `[]`, where
NumPy would raise; the caller catches that case separately). -/
def argmaxIdx : List ℚ → Nat
  | [] => 0
  | x :: xs => if xs.all (fun y => y ≤ x) then 0 else argmaxIdx xs + 1

/-- `EnhancedModelManager._ensemble_answers` (lines 305-322): with a single
answer return it; otherwise normalize the weights, take elementwise
`score * weight`, and return the answer at `np.argmax` of the weighted
scores.  On an empty list `np.argmax` raises and the `except` branch
returns `""`.  (With a positive weight sum the normalization is exact in
`ℚ`; division by a zero sum cannot arise for the positive weights the
callers pass.) -/
def ensemble_answers (answers : List String) (scores weights : List ℚ) :
    String :=
  match answers with
  | [] => ""
  | [a] => a
  | _ :: _ :: _ =>
    let s := weights.sum
    let nw := weights.map (fun w => w / s)
    let weighted := List.zipWith (fun a b => a * b) scores nw
    answers.getD (argmaxIdx weighted) ""

/-! ## `EnhancedModelManager._calculate_summary_confidence` (C9) -/

/-- The distinct lowercased terms of length `> 3` of a text
(`set(word.lower() for word in text.split() if len(word) > 3)`), as a
duplicate-free list. -/
def term_set (l : List Char) : List (List Char) :=
  (((pyWords l).filter (fun w => 3 < w.length)).map lowerL).dedup

/-- `_calculate_summary_confidence` (lines 689-708): `0.0` for summaries
under 10 characters; otherwise twice the fraction of the original's
distinct filtered terms that also occur among the summary's, clamped at
`1.0`; `0.5` when the original has no qualifying terms.  (The float
division/comparison is exact in `ℚ` at these magnitudes.) -/
def calculate_summary_confidence (summary original : List Char) : ℚ :=
  if summary.length < 10 then 0
  else
    let st := term_set summary
    let ot := term_set original
    if ot.isEmpty then 1/2
    else
      min ((st.filter (fun t => ot.contains t)).length / (ot.length : ℚ) * 2)
        1

/-! ## `EnhancedModelManager._split_into_sentences` (lines 658-687)

Two regex passes embedded as single-pass character scanners:
`re.sub(r'([.!?])\s*([A-Z])', r'\1 \2', text)` and
`re.split(r'(?<=[.!?])\s+(?=[A-Z])', text)`, followed by the cleanup loop.
Both scanners advance one character per step (Python's regex engine
restarts one position later on a failed match; a restart can never land
inside a pending `[.!?]\s*` buffer, since whitespace and the punctuation
characters cannot begin a new match). -/

/-- Scanner for `re.sub(r'([.!?])\s*([A-Z])', r'\1 \2', text)`.  The first
argument buffers a seen `[.!?]` character plus the whitespace run after it;
on an upper-case letter the buffered whitespace is replaced by one space,
otherwise the buffer is flushed unchanged. -/
def normAux : List Char → List Char → List Char
  | [], [] => []
  | p :: ws, [] => p :: ws
  | [], c :: cs =>
    if isPunctCh c then normAux [c] cs else c :: normAux [] cs
  | p :: ws, c :: cs =>
    if isWS c then normAux (p :: (ws ++ [c])) cs
    else if isUpperCh c then p :: ' ' :: c :: normAux [] cs
    else if isPunctCh c then (p :: ws) ++ normAux [c] cs
    else (p :: ws) ++ c :: normAux [] cs

/-- Scanner for `re.split(r'(?<=[.!?])\s+(?=[A-Z])', text)`.  `cur` is the
piece accumulated so far; `pend` is a nonempty whitespace run seen
immediately after a `[.!?]`-ending `cur` (a potential split point,
confirmed when the next character is `[A-Z]`). -/
def splitSentAux : List Char → List Char → List Char → List (List Char)
  | cur, pend, [] => [cur ++ pend]
  | cur, pend, c :: cs =>
    if pend.isEmpty then
      if isWS c && (match cur.getLast? with
                    | some d => isPunctCh d
                    | none => false) then
        splitSentAux cur [c] cs
      else splitSentAux (cur ++ [c]) [] cs
    else
      if isWS c then splitSentAux cur (pend ++ [c]) cs
      else if isUpperCh c then cur :: splitSentAux [c] [] cs
      else splitSentAux (cur ++ pend ++ [c]) [] cs

/-- Does the (stripped) sentence start with one of the legal-abbreviation
continuations `('Sec', 'Art', 'Clause', 'Para')`? -/
def isAbbrevStart (t : List Char) : Bool :=
  startsWithL "Sec".data t || startsWithL "Art".data t ||
    startsWithL "Clause".data t || startsWithL "Para".data t

/-- The cleanup loop of `_split_into_sentences`: strip each raw piece; keep
pieces longer than 10 characters; merge abbreviation continuations into the
previous kept sentence (or start with one if none yet). -/
def cleanSentences (raws : List (List Char)) : List (List Char) :=
  raws.foldl
    (fun acc s =>
      let t := pyStrip s
      if 10 < t.length then
        if isAbbrevStart t then
          match acc.getLast? with
          | some prev => acc.dropLast ++ [prev ++ ' ' :: t]
          | none => [t]
        else acc ++ [t]
      else acc)
    []

/-- `_split_into_sentences`: normalize punctuation spacing, split at
sentence boundaries, clean; fall back to the whole (normalized) text when
nothing survives cleaning. -/
def split_into_sentences (text : List Char) : List (List Char) :=
  let t := normAux [] text
  let cleaned := cleanSentences (splitSentAux [] [] t)
  if cleaned.isEmpty then [t] else cleaned

/-! ## `EnhancedModelManager._handle_long_documents` (lines 482-527) -/

/-- The head/middle/tail selection of `_handle_long_documents` (lines
503-513): Python slices `sentences[:first_end]`,
`sentences[middle_start:middle_end]` and `sentences[last_start:]` where
`first_end = middle_start = int(n*0.4)` and
`middle_end = last_start = int(n*0.6)`.  `int(n*0.4)` / `int(n*0.6)` equal
`2n/5` / `3n/5` in integer arithmetic (the double-precision products round
to the exact decimal value for every list length the code can encounter;
fractional parts are multiples of 0.2, far from rounding boundaries). -/
def key_slices (sentences : List (List Char)) : List (List Char) :=
  let n := sentences.length
  let fe := n * 2 / 5
  let me := n * 3 / 5
  sentences.take fe ++ ((sentences.drop fe).take (me - fe)) ++
    sentences.drop me

/-- `_handle_long_documents`: return the text unchanged when it is within
the conservative budget (`len(words) <= 12000 * 0.8`, and `12000 * 0.8`
is exactly `9600.0` in double precision) or has fewer than 10 sentences;
otherwise join the selected sentences and truncate to the first 9600 words
if the result still exceeds the budget. -/
def handle_long_documents (text : List Char) : List Char :=
  if (pyWords text).length ≤ 9600 then text
  else
    let sentences := split_into_sentences text
    if sentences.length < 10 then text
    else
      let combined := joinSp (key_slices sentences)
      let ws := pyWords combined
      if 9600 < ws.length then joinSp (ws.take 9600) else combined

/-! ## `EnhancedModelManager._enhance_answer` and helpers (C8)

The four regexes of `_apply_legal_postprocessing` /
`_extract_answer_from_context`, embedded as leftmost-match scanners.  The
patterns have no effective backtracking beyond the explicit alternatives
enumerated below (digits cannot continue as unit words, whitespace cannot
continue as digits, the keyword alternatives are mutually exclusive), so a
greedy single pass is exact. -/

/-- Attempt `(years?|months?|days?|weeks?)` (case-insensitive) at the head;
returns the matched original characters.  Alternatives are tried in
pattern order; the trailing `s?` is greedy. -/
def tryUnitAt (l : List Char) : Option (List Char) :=
  let withS := fun (k : Nat) =>
    match (l.drop k).head? with
    | some c => if lowerCh c = 's' then l.take (k + 1) else l.take k
    | none => l.take k
  if startsWithCI "year".data l then some (withS 4)
  else if startsWithCI "month".data l then some (withS 5)
  else if startsWithCI "day".data l then some (withS 3)
  else if startsWithCI "week".data l then some (withS 4)
  else none

/-- Attempt `\d+\s*(years?|months?|days?|weeks?)` (IGNORECASE) at the
head. -/
def tryDurAt (l : List Char) : Option (List Char) :=
  let ds := l.takeWhile isDigitCh
  if ds.isEmpty then none
  else
    let rest := l.drop ds.length
    let ws := rest.takeWhile isWS
    (tryUnitAt (rest.drop ws.length)).map (fun u => ds ++ ws ++ u)

/-- `re.search(r'\d+\s*(years?|months?|days?|weeks?)', l, re.IGNORECASE)`:
leftmost match. -/
def findDuration : List Char → Option (List Char)
  | [] => none
  | c :: cs =>
    match tryDurAt (c :: cs) with
    | some m => some m
    | none => findDuration cs

/-- Greedy `(,\d{3})*`: consume repeated `,ddd` groups (fuelled by the
input length; each repetition consumes four characters). -/
def moneyGroupsF : Nat → List Char → List Char
  | 0, _ => []
  | _ + 1, [] => []
  | fuel + 1, c :: rest =>
    if c = ',' then
      let ds := rest.takeWhile isDigitCh
      if 3 ≤ ds.length then ',' :: (rest.take 3 ++ moneyGroupsF fuel (rest.drop 3))
      else []
    else []

/-- Attempt `\$\d{1,3}(,\d{3})*(\.\d{2})?` at the head. -/
def tryMoneyAt (l : List Char) : Option (List Char) :=
  match l with
  | '$' :: rest =>
    let run := rest.takeWhile isDigitCh
    if run.isEmpty then none
    else
      let d1 := run.take 3
      let rest2 := rest.drop d1.length
      let gs := moneyGroupsF rest2.length rest2
      let rest3 := rest2.drop gs.length
      let dec :=
        match rest3 with
        | '.' :: r => if 2 ≤ (r.takeWhile isDigitCh).length then '.' :: r.take 2 else []
        | _ => []
      some ('$' :: (d1 ++ gs ++ dec))
  | _ => none

/-- `re.search(r'\$\d{1,3}(,\d{3})*(\.\d{2})?', l)`: leftmost match. -/
def findMoney : List Char → Option (List Char)
  | [] => none
  | c :: cs =>
    match tryMoneyAt (c :: cs) with
    | some m => some m
    | none => findMoney cs

/-- Match exactly `a` digits followed by `[slash or dash]`; returns the matched
characters and the remaining input. -/
def dateSepAt (a : Nat) (l : List Char) : Option (List Char × List Char) :=
  if a ≤ (l.takeWhile isDigitCh).length then
    match l.drop a with
    | c :: rest =>
      if c = '/' || c = '-' then some (l.take a ++ [c], rest) else none
    | [] => none
  else none

/-- `\d{1,2}[slash or dash]\d{2,4}`-tail with the middle group taking exactly `b`
digits. -/
def tryDateB (b : Nat) (l : List Char) : Option (List Char) :=
  match dateSepAt b l with
  | none => none
  | some (m2, r2) =>
    let run := r2.takeWhile isDigitCh
    if run.length < 2 then none else some (m2 ++ run.take 4)

/-- `\d{1,2}[slash or dash]\d{1,2}[slash or dash]\d{2,4}` with the first group taking exactly
`a` digits; the middle group backtracks from 2 digits to 1. -/
def tryDateA (a : Nat) (l : List Char) : Option (List Char) :=
  match dateSepAt a l with
  | none => none
  | some (m1, r1) =>
    match tryDateB 2 r1 with
    | some m2 => some (m1 ++ m2)
    | none =>
      match tryDateB 1 r1 with
      | some m2 => some (m1 ++ m2)
      | none => none

/-- Attempt `\d{1,2}[slash or dash]\d{1,2}[slash or dash]\d{2,4}` at the head (greedy groups,
backtracking 2 → 1 digits). -/
def tryDateAt (l : List Char) : Option (List Char) :=
  match tryDateA 2 l with
  | some m => some m
  | none => tryDateA 1 l

/-- `re.search(r'\d{1,2}[slash or dash]\d{1,2}[slash or dash]\d{2,4}', l)`: leftmost match. -/
def findDate : List Char → Option (List Char)
  | [] => none
  | c :: cs =>
    match tryDateAt (c :: cs) with
    | some m => some m
    | none => findDate cs

/-- Attempt `(SEC\.|Section|Article)\s*\d+\.?` (IGNORECASE) at the head;
returns the matched length.  The three keyword alternatives are mutually
exclusive, and a `\b` word boundary is checked by the caller. -/
def trySEC (l : List Char) : Option Nat :=
  let kw :=
    if startsWithCI "sec.".data l then some 4
    else if startsWithCI "section".data l then some 7
    else if startsWithCI "article".data l then some 7
    else none
  match kw with
  | none => none
  | some k =>
    let rest := l.drop k
    let ws := rest.takeWhile isWS
    let rest2 := rest.drop ws.length
    let ds := rest2.takeWhile isDigitCh
    if ds.isEmpty then none
    else
      let tail := rest2.drop ds.length
      some (k + ws.length + ds.length +
        (match tail with
         | '.' :: _ => 1
         | _ => 0))

/-- Scanner for `re.sub(r'\b(SEC\.|Section|Article)\s*\d+\.?', '', l,
flags=re.IGNORECASE)`.  The `Bool` is whether the previous original
character was a word character (for `\b`); the `Nat` counts characters of
a confirmed match still to be deleted. -/
def subSECAux : Bool → Nat → List Char → List Char
  | _, _, [] => []
  | _, Nat.succ k, c :: cs => subSECAux (isWordCh c) k cs
  | prevWord, 0, c :: cs =>
    if !prevWord then
      match trySEC (c :: cs) with
      | some k => subSECAux (isWordCh c) (k - 1) cs
      | none => c :: subSECAux (isWordCh c) 0 cs
    else c :: subSECAux (isWordCh c) 0 cs

/-- Remove all `\b(SEC\.|Section|Article)\s*\d+\.?` occurrences. -/
def subSEC (l : List Char) : List Char := subSECAux false 0 l

/-- Scanner for `re.sub(r'\s+', ' ', l)` (flag: previous character was
whitespace). -/
def collapseWSAux : Bool → List Char → List Char
  | _, [] => []
  | prevWS, c :: cs =>
    if isWS c then
      if prevWS then collapseWSAux true cs else ' ' :: collapseWSAux true cs
    else c :: collapseWSAux false cs

/-- `re.sub(r'\s+', ' ', l)`. -/
def collapseWS (l : List Char) : List Char := collapseWSAux false l

/-- `any(word in question_lower for word in ws)`. -/
def anyKeyword (ql : List Char) (ws : List String) : Bool :=
  ws.any (fun w => containsSub w.data ql)

/-- `_apply_legal_postprocessing` (lines 346-378): strip SEC/Section/
Article references, collapse whitespace, then for recognised question
types return the first matching span of the answer, falling back to the
stripped answer. -/
def apply_legal_postprocessing (answer question : List Char) : List Char :=
  let a := collapseWS (subSEC answer)
  let ql := lowerL question
  if anyKeyword ql ["how long", "duration", "period"] then
    match findDuration a with
    | some m => m
    | none => pyStrip a
  else if anyKeyword ql ["how much", "cost", "price", "amount"] then
    match findMoney a with
    | some m => m
    | none => pyStrip a
  else if anyKeyword ql ["when", "date"] then
    match findDate a with
    | some m => m
    | none => pyStrip a
  else pyStrip a

/-- `_validate_answer_context` (lines 380-396): at least 50% of the
answer's distinct lowercased terms longer than 3 characters must occur
among the context's lowercased words; an answer with no such terms is
valid.  (`overlap >= 0.5` on the float quotient is exactly
`2 * |hits| >= |terms|`.) -/
def validate_answer_context (answer context : List Char) : Bool :=
  let ats := (((pyWords answer).filter (fun w => 3 < w.length)).map lowerL).dedup
  let cts := (pyWords context).map lowerL
  if ats.isEmpty then true
  else ats.length ≤ 2 * (ats.filter (fun t => cts.contains t)).length

/-- `_extract_answer_from_context` (lines 398-419): for recognised
question types, the first matching span of the context; otherwise
nothing. -/
def extract_answer_from_context (question context : List Char) :
    Option (List Char) :=
  let ql := lowerL question
  if anyKeyword ql ["how long", "duration", "period"] then findDuration context
  else if anyKeyword ql ["how much", "cost", "price", "amount"] then
    findMoney context
  else if anyKeyword ql ["when", "date"] then findDate context
  else none

/-- `_enhance_answer` (lines 324-344): strip, post-process, validate
against the context, and replace by a context extraction when validation
fails and an extraction exists. -/
def enhance_answer (answer question context : List Char) : List Char :=
  let a := apply_legal_postprocessing (pyStrip answer) question
  if !validate_answer_context a context then
    match extract_answer_from_context question context with
    | some e => e
    | none => a
  else a

/-! ## Concrete documents for exercising `_handle_long_documents`

Regular documents built from two fixed 12-word sentences.  `bigDoc`
(1500 sentences, 18000 words) exceeds the 9600-word budget with its last
third starting after word 12000, so the final truncation cuts the whole
last third away. -/

/-- A sentence of shape the splitter recognises: capital start, single
internal spaces, one final period.  Words of the body sentence. -/
def sentSW : List (List Char) :=
  ["Alpha".data, "beta".data, "gamma".data, "delta".data, "epsilon".data,
   "zeta".data, "eta".data, "theta".data, "iota".data, "kappa".data,
   "lambda".data, "mu.".data]

/-- Words of the distinct tail sentence. -/
def sentUW : List (List Char) :=
  ["Unique".data, "omega".data, "termination".data, "provisions".data,
   "appear".data, "here".data, "only".data, "near".data, "the".data,
   "very".data, "end".data, "now.".data]

/-- The body sentence (12 words). -/
def sentS : List Char := joinSp sentSW

/-- The tail sentence (12 words). -/
def sentU : List Char := joinSp sentUW

/-- `n` copies of the body sentence followed by `m` copies of the tail
sentence. -/
def docSents (n m : Nat) : List (List Char) :=
  List.replicate n sentS ++ List.replicate m sentU

/-- The 1500-sentence, 18000-word document. -/
def bigDoc : List Char := joinSp (docSents 1000 500)

/-- An 11-sentence document comfortably within the word budget. -/
def smallDoc : List Char := joinSp (docSents 10 1)

/-- Sentences that the splitting scanners pass through unchanged: at least
two characters, upper-case start, a final `'.'`, and no `[.!?]` anywhere
before the final character. -/
def goodSent (s : List Char) : Bool :=
  match s with
  | [] => false
  | c :: t =>
    isUpperCh c && !isPunctCh c && !t.isEmpty && t.getLast? == some '.' &&
      t.dropLast.all (fun ch => !isPunctCh ch)

/-- Sentences additionally untouched by the cleanup loop: longer than 10
characters and not starting with a legal-abbreviation prefix. -/
def tameSent (s : List Char) : Bool :=
  goodSent s && 10 < s.length && !isAbbrevStart s

/-- Words the whitespace splitter recovers exactly: nonempty and free of
whitespace. -/
def solidWord (w : List Char) : Bool :=
  !w.isEmpty && w.all (fun ch => !isWS ch)

/-! # Lemmas and claim theorems -/

/-! ## Cache lemmas -/

/-- After a fresh append, `find?` for the appended key succeeds. -/
theorem find?_append_fresh {V : Type} (l : List (String × V)) (k : String)
    (v : V) (h : l.any (fun p => p.1 == k) = false) :
    (l ++ [(k, v)]).find? (fun p => p.1 == k) = some (k, v) := by
  induction l with
  | nil => simp [List.find?]
  | cons p t ih =>
    simp only [List.any_cons, Bool.or_eq_false_iff] at h
    rw [List.cons_append, List.find?_cons_of_neg _ (by simp [h.1])]
    exact ih h.2

/-- After an in-place overwrite, `find?` for the key returns the new
value. -/
theorem find?_overwrite {V : Type} (l : List (String × V)) (k : String)
    (v : V) (h : l.any (fun p => p.1 == k) = true) :
    (l.map (fun p => if p.1 == k then (k, v) else p)).find?
      (fun p => p.1 == k) = some (k, v) := by
  induction l with
  | nil => simp at h
  | cons p t ih =>
    cases hp : (p.1 == k) with
    | true =>
      rw [List.map_cons, if_pos hp, List.find?_cons_of_pos]
      simp
    | false =>
      simp only [List.any_cons, hp, Bool.false_or] at h
      rw [List.map_cons, if_neg (by simp [hp]), List.find?_cons_of_neg _ (by simp [hp])]
      exact ih h

/-- `dictInsert` always leaves the key bound to the new value, first in
`find?` order. -/
theorem find?_dictInsert {V : Type} (l : List (String × V)) (k : String)
    (v : V) :
    (dictInsert l k v).find? (fun p => p.1 == k) = some (k, v) := by
  unfold dictInsert
  by_cases h : l.any (fun p => p.1 == k) = true
  · rw [if_pos h]; exact find?_overwrite l k v h
  · rw [if_neg h]
    exact find?_append_fresh l k v (Bool.eq_false_iff.mpr h)

/-- `QACache.set` makes the pair retrievable. -/
theorem get_after_set {V : Type} (σ : QACache V) (q c : String) (v : V) :
    (σ.set q c v).get q c = some v := by
  unfold QACache.set QACache.get
  simp [find?_dictInsert]

/-! ## C2 — repeated `answer_question` calls hit the cache -/

/-- C2: For every (question, context) pair whose first `answer_question`
call succeeds, calling it again with the same arguments returns the very
same result: the first call has stored its result in the cache under the
key derived from (question, context) (third conjunct), and the second call
returns that cached value without invoking the model again and without
changing the cache (first conjunct, with the invocation flag `false`).
The `max_size` hypothesis reflects that a Python `QACache(0)` would raise
`StopIteration` when popping from an empty dict (the deployed bound is
1000). -/
theorem answer_question_second_call_cached
    (modelLoaded : Bool) (infer : String → String → Except Unit String)
    (q c : String) (σ : QACache QAAnswer) (hmax : 1 ≤ σ.max_size)
    (v : QAAnswer)
    (hok : (answer_question_core modelLoaded infer q c).1 = Except.ok v) :
    answer_question modelLoaded infer q c
        (answer_question modelLoaded infer q c σ).2.1 =
      ((answer_question modelLoaded infer q c σ).1,
       (answer_question modelLoaded infer q c σ).2.1, false) ∧
    ∃ u, (answer_question modelLoaded infer q c σ).1 = Except.ok u ∧
      ((answer_question modelLoaded infer q c σ).2.1).get q c = some u := by
  unfold answer_question cache_qa_result
  cases hget : σ.get q c with
  | some u =>
    exact ⟨by simp [hget], u, by simp [hget], by simp [hget]⟩
  | none =>
    exact ⟨by simp [hget, hok, get_after_set], v, by simp [hget, hok],
      by simp [hget, hok, get_after_set]⟩

/-- Witness for C2 at a concrete successful call on the empty cache. -/
theorem answer_question_second_call_cached_witness :
    1 ≤ (QACache.empty QAAnswer 1000).max_size ∧
    (answer_question_core true (fun _ _ => Except.ok "Ten years")
        "How long?" "The lease term runs ten years.").1 =
      Except.ok ⟨"Ten years", 9/10, 0, 0⟩ ∧
    (answer_question true (fun _ _ => Except.ok "Ten years") "How long?"
        "The lease term runs ten years."
        (answer_question true (fun _ _ => Except.ok "Ten years") "How long?"
          "The lease term runs ten years."
          (QACache.empty QAAnswer 1000)).2.1 =
      ((answer_question true (fun _ _ => Except.ok "Ten years") "How long?"
          "The lease term runs ten years."
          (QACache.empty QAAnswer 1000)).1,
       (answer_question true (fun _ _ => Except.ok "Ten years") "How long?"
          "The lease term runs ten years."
          (QACache.empty QAAnswer 1000)).2.1, false) ∧
     ∃ u, (answer_question true (fun _ _ => Except.ok "Ten years")
        "How long?" "The lease term runs ten years."
        (QACache.empty QAAnswer 1000)).1 = Except.ok u ∧
       ((answer_question true (fun _ _ => Except.ok "Ten years") "How long?"
          "The lease term runs ten years."
          (QACache.empty QAAnswer 1000)).2.1).get "How long?"
          "The lease term runs ten years." = some u) :=
  ⟨by decide, rfl,
   answer_question_second_call_cached true (fun _ _ => Except.ok "Ten years")
     "How long?" "The lease term runs ten years."
     (QACache.empty QAAnswer 1000) (by decide)
     ⟨"Ten years", 9/10, 0, 0⟩ rfl⟩

/-! ## C6 — if every QA model fails, the failure propagates and the cache
is untouched -/

/-- C6: When the `answer_question` body raises (which is what happens when
every QA model fails — the only models here are `qa_model` itself and the
`ModelUnavailable`-style re-raise on line 101), and no cached entry exists
for the pair, the decorated `answer_question` propagates the failure to
the caller, the cache is returned unchanged (no entry inserted), and the
body was invoked. -/
theorem answer_question_failure_leaves_cache
    (modelLoaded : Bool) (infer : String → String → Except Unit String)
    (q c : String) (σ : QACache QAAnswer) (e : Unit)
    (hmiss : σ.get q c = none)
    (hfail : (answer_question_core modelLoaded infer q c).1 =
      Except.error e) :
    answer_question modelLoaded infer q c σ = (Except.error e, σ, true) := by
  unfold answer_question cache_qa_result
  simp only [hmiss, hfail]

/-- Witness for C6: a model configured to always fail, empty cache. -/
theorem answer_question_failure_leaves_cache_witness :
    (QACache.empty QAAnswer 1000).get "Any question?"
        "This lease context is long enough." = none ∧
    (answer_question_core true (fun _ _ => Except.error ()) "Any question?"
        "This lease context is long enough.").1 = Except.error () ∧
    answer_question true (fun _ _ => Except.error ()) "Any question?"
        "This lease context is long enough." (QACache.empty QAAnswer 1000) =
      (Except.error (), QACache.empty QAAnswer 1000, true) :=
  ⟨rfl, rfl,
   answer_question_failure_leaves_cache true (fun _ _ => Except.error ())
     "Any question?" "This lease context is long enough."
     (QACache.empty QAAnswer 1000) () rfl rfl⟩

/-! ## C7 — bounded cache with oldest-first eviction -/

/-- `dictInsert` grows the dict by at most one entry. -/
theorem dictInsert_length_le {V : Type} (l : List (String × V)) (k : String)
    (v : V) : (dictInsert l k v).length ≤ l.length + 1 := by
  unfold dictInsert
  by_cases h : l.any (fun p => p.1 == k) = true
  · simp [h]
  · simp [h]

/-- One `set` keeps the entry count within the bound. -/
theorem set_entries_length_le {V : Type} (σ : QACache V) (q c : String)
    (v : V) (hm : 1 ≤ σ.max_size) (h : σ.entries.length ≤ σ.max_size) :
    (σ.set q c v).entries.length ≤ σ.max_size := by
  unfold QACache.set
  by_cases hfull : σ.max_size ≤ σ.entries.length
  · simp only [if_pos hfull]
    have h2 := dictInsert_length_le (σ.entries.drop 1)
      (generate_key q c) v
    have h3 : (σ.entries.drop 1).length = σ.entries.length - 1 :=
      List.length_drop 1 σ.entries
    omega
  · simp only [if_neg hfull]
    have h2 := dictInsert_length_le σ.entries (generate_key q c) v
    omega

/-- `set` never changes the bound. -/
theorem set_max_size {V : Type} (σ : QACache V) (q c : String) (v : V) :
    (σ.set q c v).max_size = σ.max_size := rfl

/-- Folding any operation sequence preserves the bound and the size
invariant. -/
theorem foldl_cacheStep_invariant {V : Type} (ops : List (CacheOp V))
    (σ : QACache V) (hm : 1 ≤ σ.max_size)
    (h : σ.entries.length ≤ σ.max_size) :
    (ops.foldl cacheStep σ).max_size = σ.max_size ∧
    (ops.foldl cacheStep σ).entries.length ≤ σ.max_size := by
  induction ops generalizing σ with
  | nil => exact ⟨rfl, h⟩
  | cons op rest ih =>
    cases op with
    | opGet q c => exact ih σ hm h
    | opSet q c v =>
      have h1 := set_entries_length_le σ q c v hm h
      have h2 : (σ.set q c v).max_size = σ.max_size := rfl
      simpa [List.foldl_cons, cacheStep, h2] using
        ih (σ.set q c v) (h2 ▸ hm) (h2 ▸ h1)

/-- `dictInsert` on a fresh key appends the pair at the end. -/
theorem dictInsert_fresh {V : Type} (l : List (String × V)) (k : String)
    (v : V) (h : l.any (fun p => p.1 == k) = false) :
    dictInsert l k v = l ++ [(k, v)] := by
  unfold dictInsert
  rw [h]
  simp

/-- A full `set` with a fresh key first drops the oldest-inserted entry
and then appends the new pair at the end. -/
theorem set_full_fresh {V : Type} (σ : QACache V) (q c : String) (v : V)
    (hfull : σ.max_size ≤ σ.entries.length)
    (hfresh : σ.entries.all
      (fun p => !(p.1 == generate_key q c)) = true) :
    (σ.set q c v).entries =
      σ.entries.drop 1 ++ [(generate_key q c, v)] := by
  have hany : (σ.entries.drop 1).any
      (fun p => p.1 == generate_key q c) = false := by
    rw [List.any_eq_false]
    intro p hp
    have hmem : p ∈ σ.entries := List.drop_subset 1 σ.entries hp
    have := (List.all_eq_true.mp hfresh) p hmem
    simpa using this
  show dictInsert
      (if σ.max_size ≤ σ.entries.length then σ.entries.drop 1
       else σ.entries) (generate_key q c) v =
    σ.entries.drop 1 ++ [(generate_key q c, v)]
  rw [if_pos hfull, dictInsert_fresh _ _ _ hany]

/-- C7: Starting from the empty cache with `max_size = m ≥ 1`, after any
sequence of `get`/`set` operations the number of entries never exceeds
`m`; and whenever a `set` occurs while the cache is full, exactly one
entry — the oldest-inserted one (the head of the insertion-ordered entry
list, independent of any accesses) — is evicted and then the new entry is
appended. -/
theorem qacache_bounded_evicts_oldest {V : Type} (m : Nat) (hm : 1 ≤ m)
    (ops : List (CacheOp V)) (q c : String) (v : V) :
    (runOps m ops).entries.length ≤ m ∧
    (m ≤ (runOps m ops).entries.length →
      (runOps m ops).entries.all
        (fun p => !(p.1 == generate_key q c)) = true →
      ((runOps m ops).set q c v).entries =
        (runOps m ops).entries.drop 1 ++ [(generate_key q c, v)]) := by
  have base := foldl_cacheStep_invariant ops (QACache.empty V m) hm
    (by simp [QACache.empty])
  have hmax : (runOps m ops).max_size = m := base.1
  refine ⟨base.2, fun hfull hfresh => ?_⟩
  refine set_full_fresh (runOps m ops) q c v ?_ hfresh
  rw [hmax]
  exact hfull

/-- Witness for C7: bound 1, two inserts (the second evicting the first),
then a fresh full `set`. -/
theorem qacache_bounded_evicts_oldest_witness :
    1 ≤ 1 ∧
    (runOps 1 [CacheOp.opSet "a" "b" (0 : Nat),
        CacheOp.opSet "c" "d" 1]).entries.length ≤ 1 ∧
    1 ≤ (runOps 1 [CacheOp.opSet "a" "b" (0 : Nat),
        CacheOp.opSet "c" "d" 1]).entries.length ∧
    (runOps 1 [CacheOp.opSet "a" "b" (0 : Nat),
        CacheOp.opSet "c" "d" 1]).entries.all
      (fun p => !(p.1 == generate_key "e" "f")) = true ∧
    ((runOps 1 [CacheOp.opSet "a" "b" (0 : Nat),
        CacheOp.opSet "c" "d" 1]).set "e" "f" 2).entries =
      (runOps 1 [CacheOp.opSet "a" "b" (0 : Nat),
          CacheOp.opSet "c" "d" 1]).entries.drop 1 ++
        [(generate_key "e" "f", 2)] :=
  ⟨by decide,
   (qacache_bounded_evicts_oldest 1 (by decide)
     [CacheOp.opSet "a" "b" (0 : Nat), CacheOp.opSet "c" "d" 1]
     "e" "f" 2).1,
   by decide, by decide,
   (qacache_bounded_evicts_oldest 1 (by decide)
     [CacheOp.opSet "a" "b" (0 : Nat), CacheOp.opSet "c" "d" 1]
     "e" "f" 2).2 (by decide) (by decide)⟩

/-! ## C1 — the selected answer is one model's raw output with maximal
`score * weight` -/

/-- `np.argmax` stays in range on nonempty lists. -/
theorem argmaxIdx_lt_length (l : List ℚ) (hl : l ≠ []) :
    argmaxIdx l < l.length := by
  induction l with
  | nil => exact absurd rfl hl
  | cons x xs ih =>
    simp only [argmaxIdx]
    by_cases h : (xs.all fun y => decide (y ≤ x)) = true
    · rw [if_pos h]
      simp
    · rw [if_neg h]
      have hxs : xs ≠ [] := by
        intro he
        subst he
        simp at h
      have := ih hxs
      simp only [List.length_cons]
      omega

/-- `np.argmax` points at a maximal element. -/
theorem argmaxIdx_is_max (l : List ℚ) :
    ∀ y ∈ l, y ≤ l.getD (argmaxIdx l) 0 := by
  induction l with
  | nil => intro y hy; simp at hy
  | cons x xs ih =>
    intro y hy
    simp only [argmaxIdx]
    by_cases h : (xs.all fun y => decide (y ≤ x)) = true
    · rw [if_pos h]
      simp only [List.getD_cons_zero]
      rcases List.mem_cons.mp hy with rfl | hmem
      · exact le_refl y
      · exact of_decide_eq_true (List.all_eq_true.mp h y hmem)
    · rw [if_neg h]
      simp only [List.getD_cons_succ]
      rcases List.mem_cons.mp hy with rfl | hmem
      · have hex : ∃ z ∈ xs, ¬(z ≤ y) := by
          by_contra hc
          push_neg at hc
          apply h
          rw [List.all_eq_true]
          intro z hz
          exact decide_eq_true (hc z hz)
        obtain ⟨z, hz, hzy⟩ := hex
        exact le_trans (le_of_lt (lt_of_not_le hzy)) (ih z hz)
      · exact ih y hmem

/-- C1: For every nonempty list of model answers with their scores and
positive per-model weights (`_ensemble_answers`'s callers pass 0.5 / 0.3 /
0.2), the selected answer text is one of the raw per-model answers — never
a merge — and specifically an answer whose `score * weight` is maximal
among the contributing models.  (Normalizing the weights by their positive
sum does not change which index maximizes `score * weight`.) -/
theorem ensemble_answers_confidence_weighted
    (answers : List String) (scores weights : List ℚ)
    (hne : answers ≠ [])
    (hs : scores.length = answers.length)
    (hw : weights.length = answers.length)
    (hpos : ∀ w ∈ weights, 0 < w) :
    ensemble_answers answers scores weights ∈ answers ∧
    ∃ i, i < answers.length ∧
      ensemble_answers answers scores weights = answers.getD i "" ∧
      ∀ j, j < answers.length →
        scores.getD j 0 * weights.getD j 0 ≤
          scores.getD i 0 * weights.getD i 0 := by
  cases answers with
  | nil => exact absurd rfl hne
  | cons a tail =>
    cases tail with
    | nil =>
      refine ⟨List.mem_cons_self a [], 0, by simp, rfl, ?_⟩
      intro j hj
      have : j = 0 := by simpa using Nat.lt_one_iff.mp (by simpa using hj)
      subst this
      exact le_refl _
    | cons b rest =>
      set n := (a :: b :: rest).length with hn
      have hwne : weights ≠ [] := by
        intro he
        rw [he] at hw
        simp [hn] at hw
      have hspos : 0 < weights.sum := List.sum_pos weights hpos hwne
      set s := weights.sum with hsdef
      set nw := weights.map (fun w => w / s) with hnw
      set weighted := List.zipWith (fun x y => x * y) scores nw
        with hweighted
      have hwl : weighted.length = n := by
        rw [hweighted, List.length_zipWith, hnw, List.length_map, hs, hw]
        exact Nat.min_self n
      have hdef : ensemble_answers (a :: b :: rest) scores weights =
          (a :: b :: rest).getD (argmaxIdx weighted) "" := rfl
      have hwnn : weighted ≠ [] := by
        intro he
        rw [he] at hwl
        simp [hn] at hwl
      have hK : argmaxIdx weighted < n := by
        rw [← hwl]
        exact argmaxIdx_lt_length weighted hwnn
      have hval : ∀ t, t < n →
          weighted.getD t 0 =
            (scores.getD t 0 * weights.getD t 0) / s := by
        intro t ht
        have htw : t < weighted.length := by rw [hwl]; exact ht
        have hts : t < scores.length := by rw [hs]; exact ht
        have htwt : t < weights.length := by rw [hw]; exact ht
        rw [List.getD_eq_getElem _ _ htw, List.getD_eq_getElem _ _ hts,
          List.getD_eq_getElem _ _ htwt]
        simp only [hweighted, List.getElem_zipWith, hnw, List.getElem_map]
        rw [mul_div_assoc]
      refine ⟨?_, argmaxIdx weighted, hK, hdef, ?_⟩
      · rw [hdef, List.getD_eq_getElem _ _ hK]
        exact List.getElem_mem hK
      · intro j hj
        have hjw : j < weighted.length := by rw [hwl]; exact hj
        have hmem : weighted.getD j 0 ∈ weighted := by
          rw [List.getD_eq_getElem _ _ hjw]
          exact List.getElem_mem hjw
        have hle := argmaxIdx_is_max weighted _ hmem
        rw [hval j hj, hval (argmaxIdx weighted) hK] at hle
        exact (div_le_div_iff_of_pos_right hspos).mp hle

/-- Witness for C1: two answers; the first has the larger
`score * weight`. -/
theorem ensemble_answers_confidence_weighted_witness :
    (["Twelve months", "Ten years"] : List String) ≠ [] ∧
    ([2, 1] : List ℚ).length =
      (["Twelve months", "Ten years"] : List String).length ∧
    ([3, 1] : List ℚ).length =
      (["Twelve months", "Ten years"] : List String).length ∧
    (∀ w ∈ ([3, 1] : List ℚ), 0 < w) ∧
    (ensemble_answers ["Twelve months", "Ten years"] [2, 1]
        [3, 1] ∈ (["Twelve months", "Ten years"] : List String) ∧
      ∃ i, i < (["Twelve months", "Ten years"] : List String).length ∧
        ensemble_answers ["Twelve months", "Ten years"] [2, 1]
            [3, 1] =
          (["Twelve months", "Ten years"] : List String).getD i "" ∧
        ∀ j, j < (["Twelve months", "Ten years"] : List String).length →
          ([2, 1] : List ℚ).getD j 0 *
              ([3, 1] : List ℚ).getD j 0 ≤
            ([2, 1] : List ℚ).getD i 0 *
              ([3, 1] : List ℚ).getD i 0) :=
  ⟨by decide, by decide, by decide, by decide,
   ensemble_answers_confidence_weighted ["Twelve months", "Ten years"]
     [2, 1] [3, 1] (by decide) (by decide) (by decide)
     (by decide)⟩

/-! ## C9 — summary confidence bounds -/

/-- C9 (amended): the confidence is always within `[0,1]`; it is exactly
`0` for summaries under 10 characters; when the reference text has at
least one filtered term it is the scaled clamped overlap; but when the
reference has no qualifying term the code returns the fixed default `1/2`
rather than any overlap value. -/
theorem calculate_summary_confidence_bounds (summary original : List Char) :
    0 ≤ calculate_summary_confidence summary original ∧
    calculate_summary_confidence summary original ≤ 1 ∧
    (summary.length < 10 →
      calculate_summary_confidence summary original = 0) ∧
    (10 ≤ summary.length → term_set original ≠ [] →
      calculate_summary_confidence summary original =
        min ((((term_set summary).filter
            (fun t => (term_set original).contains t)).length : ℚ) /
          ((term_set original).length : ℚ) * 2) 1) ∧
    (10 ≤ summary.length → term_set original = [] →
      calculate_summary_confidence summary original = 1/2) := by
  unfold calculate_summary_confidence
  by_cases hlen : summary.length < 10
  · simp only [if_pos hlen]
    refine ⟨le_refl 0, by norm_num, fun _ => trivial, ?_, ?_⟩
    · intro h10
      omega
    · intro h10
      omega
  · simp only [if_neg hlen]
    by_cases hot : (term_set original).isEmpty = true
    · simp only [if_pos hot]
      have hot' : term_set original = [] := List.isEmpty_iff.mp hot
      refine ⟨by norm_num, by norm_num, fun h => absurd h hlen,
        fun _ hne => absurd hot' hne, fun _ _ => trivial⟩
    · simp only [if_neg hot]
      have hnn : (0 : ℚ) ≤ (((term_set summary).filter
          (fun t => (term_set original).contains t)).length : ℚ) /
          ((term_set original).length : ℚ) * 2 := by
        apply mul_nonneg
        · apply div_nonneg <;> exact Nat.cast_nonneg _
        · norm_num
      refine ⟨le_min hnn (by norm_num), min_le_right _ _,
        fun h => absurd h hlen, fun _ _ => trivial, fun _ he => ?_⟩
      rw [List.isEmpty_iff] at hot
      exact absurd he hot

/-- Witness for C9's amended statement at a concrete pair with a
nonempty reference term set. -/
theorem calculate_summary_confidence_bounds_witness :
    10 ≤ ("This lease covers rental terms.".data).length ∧
    term_set ("The rental lease document.".data) ≠ [] ∧
    0 ≤ calculate_summary_confidence "This lease covers rental terms.".data
        "The rental lease document.".data ∧
    calculate_summary_confidence "This lease covers rental terms.".data
        "The rental lease document.".data ≤ 1 ∧
    calculate_summary_confidence "This lease covers rental terms.".data
        "The rental lease document.".data =
      min ((((term_set "This lease covers rental terms.".data).filter
          (fun t =>
            (term_set "The rental lease document.".data).contains t)).length :
          ℚ) /
        ((term_set "The rental lease document.".data).length : ℚ) * 2) 1 :=
  ⟨by decide, by decide,
   (calculate_summary_confidence_bounds
     "This lease covers rental terms.".data
     "The rental lease document.".data).1,
   (calculate_summary_confidence_bounds
     "This lease covers rental terms.".data
     "The rental lease document.".data).2.1,
   (calculate_summary_confidence_bounds
     "This lease covers rental terms.".data
     "The rental lease document.".data).2.2.2.1 (by decide) (by decide)⟩

/-- Counterexample to C9 as stated: for a long summary and a reference
with no term longer than 3 characters, the code returns the default `1/2`,
which is not the scaled clamped term-overlap (that expression evaluates to
`0` here). -/
theorem calculate_summary_confidence_counterexample :
    10 ≤ ("elephantine considerations".data).length ∧
    calculate_summary_confidence "elephantine considerations".data
        "a b c".data = 1/2 ∧
    calculate_summary_confidence "elephantine considerations".data
        "a b c".data ≠
      min ((((term_set "elephantine considerations".data).filter
          (fun t => (term_set "a b c".data).contains t)).length : ℚ) /
        ((term_set "a b c".data).length : ℚ) * 2) 1 := by
  have h1 : term_set ("a b c".data) = [] := rfl
  have h2 : calculate_summary_confidence "elephantine considerations".data
      "a b c".data = 1/2 := rfl
  refine ⟨by decide, h2, ?_⟩
  rw [h2, h1]
  simp

/-! ## C5 — blank or too-short context -/

/-- Counterexample to C5 as stated: the context `"a        b"` has only 2
non-whitespace characters (fewer than 10), yet `answer_question` proceeds
to invoke the QA model, because the code's guard tests
`len(context.strip()) < 10` — the trimmed length (10 here, counting
internal spaces) — not the count of non-whitespace characters. -/
theorem answer_question_empty_input_counterexample :
    (("a        b".data.filter (fun ch => !isWS ch)).length < 10) ∧
    (answer_question_core true (fun _ _ => Except.ok "stub") "Any question?"
        "a        b").2 = true :=
  ⟨by decide, rfl⟩

/-- C5 (amended): with the QA model initialized, a context that is empty
or whose whitespace-trimmed length is under 10 characters makes
`answer_question` return the descriptive too-short result with score
`0.0`, without invoking the QA model. -/
theorem answer_question_empty_input
    (infer : String → String → Except Unit String) (q c : String)
    (h : c = "" ∨ (pyStrip c.data).length < 10) :
    answer_question_core true infer q c =
      (Except.ok ⟨too_short_message, 0, 0, 0⟩, false) := by
  rcases h with rfl | hlen
  · rfl
  · unfold answer_question_core
    simp [hlen]

/-- Witness for C5's amended statement at the empty context. -/
theorem answer_question_empty_input_witness :
    (("" : String) = "" ∨ (pyStrip ("" : String).data).length < 10) ∧
    answer_question_core true (fun _ _ => Except.ok "stub") "Any question?"
        "" = (Except.ok ⟨too_short_message, 0, 0, 0⟩, false) :=
  ⟨Or.inl rfl,
   answer_question_empty_input (fun _ _ => Except.ok "stub") "Any question?"
     "" (Or.inl rfl)⟩

/-! ## C4 — chunk concatenation vs. the original text -/

/-- The paragraph splitter never returns an empty list. -/
theorem splitNNAux_ne_nil (cur l : List Char) : splitNNAux cur l ≠ [] := by
  induction cur, l using splitNNAux.induct with
  | case1 cur rest ih => simp [splitNNAux]
  | case2 cur c rest hne ih => simpa [splitNNAux, hne] using ih
  | case3 cur => simp [splitNNAux]

/-- `joinNN` on a cons with nonempty tail. -/
theorem joinNN_cons_ne (p : List Char) (l : List (List Char))
    (hl : l ≠ []) :
    joinNN (p :: l) = p ++ '\n' :: '\n' :: joinNN l := by
  cases l with
  | nil => exact absurd rfl hl
  | cons q rest => rfl

/-- Re-interleaving `"\n\n"` undoes the paragraph split. -/
theorem joinNN_splitNNAux (cur l : List Char) :
    joinNN (splitNNAux cur l) = cur ++ l := by
  induction cur, l using splitNNAux.induct with
  | case1 cur rest ih =>
    rw [splitNNAux, joinNN_cons_ne _ _ (splitNNAux_ne_nil [] rest), ih]
    simp
  | case2 cur c rest hne ih =>
    rw [splitNNAux]
    · rw [ih]
      simp
    · exact hne
  | case3 cur => simp [splitNNAux, joinNN]

/-- Counterexample to C4 as stated: on `"ab\n\ncd"` the chunker returns
`["ab", "cd"]`, whose in-order concatenation `"abcd"` is not the original
text — the `"\n\n"` separator characters are dropped at the chunk
boundary. -/
theorem get_chunks_counterexample :
    ("ab\n\ncd".data ≠ []) ∧
    (get_chunks "ab\n\ncd".data).flatten ≠ "ab\n\ncd".data :=
  ⟨by decide, by decide⟩

/-- C4 (amended): the chunker returns exactly the `"\n\n"`-separated
paragraphs of the text — provided no paragraph exceeds 100 words (no
sentence re-splitting) and none is blank (nothing filtered) — and the
original text is reconstructed by re-interleaving the dropped `"\n\n"`
separators between the chunks; plain concatenation loses them. -/
theorem get_chunks_reconstruct (context : List Char)
    (h : ∀ p ∈ splitNN context,
      (pyWords p).length ≤ 100 ∧ pyStrip p ≠ []) :
    get_chunks context = splitNN context ∧
    joinNN (get_chunks context) = context := by
  have hfold : ∀ (ps : List (List Char)) (acc : List (List Char)),
      (∀ p ∈ ps, (pyWords p).length ≤ 100) →
      ps.foldl (fun acc para =>
        if 100 < (pyWords para).length then acc ++ splitDS para
        else acc ++ [para]) acc = acc ++ ps := by
    intro ps
    induction ps with
    | nil => intro acc _; simp
    | cons p rest ih =>
      intro acc hp
      have h1 : ¬(100 < (pyWords p).length) := by
        have := hp p (List.mem_cons_self p rest)
        omega
      rw [List.foldl_cons, if_neg h1, ih _ (fun x hx =>
        hp x (List.mem_cons_of_mem p hx))]
      simp
  have hchunks : get_chunks context = splitNN context := by
    show (List.foldl (fun acc para =>
        if 100 < (pyWords para).length then acc ++ splitDS para
        else acc ++ [para]) [] (splitNN context)).filter
      (fun ch => !(pyStrip ch).isEmpty) = splitNN context
    rw [hfold (splitNN context) [] (fun p hp => (h p hp).1)]
    rw [List.nil_append]
    rw [List.filter_eq_self.mpr]
    intro p hp
    have := (h p hp).2
    simpa [List.isEmpty_iff] using this
  refine ⟨hchunks, ?_⟩
  rw [hchunks]
  exact joinNN_splitNNAux [] context

/-- Witness for C4's amended statement on a two-paragraph text. -/
theorem get_chunks_reconstruct_witness :
    (∀ p ∈ splitNN "Lease term one.\n\nSecond paragraph.".data,
      (pyWords p).length ≤ 100 ∧ pyStrip p ≠ []) ∧
    get_chunks "Lease term one.\n\nSecond paragraph.".data =
      splitNN "Lease term one.\n\nSecond paragraph.".data ∧
    joinNN (get_chunks "Lease term one.\n\nSecond paragraph.".data) =
      "Lease term one.\n\nSecond paragraph.".data :=
  ⟨by decide,
   get_chunks_reconstruct "Lease term one.\n\nSecond paragraph.".data
     (by decide)⟩

/-! ## C8 — validation failure fallback -/

/-- Counterexample to C8 as stated: the answer `" elephant giraffe "`
shares no term with the context, so validation fails; no question-type
extraction exists for `"what is it"`; yet the returned answer is not the
original answer unchanged — the code returns the cleaned (stripped,
post-processed) answer `"elephant giraffe"`. -/
theorem enhance_answer_counterexample :
    validate_answer_context " elephant giraffe ".data
        "nothing relevant here at all".data = false ∧
    extract_answer_from_context "what is it".data
        "nothing relevant here at all".data = none ∧
    enhance_answer " elephant giraffe ".data "what is it".data
        "nothing relevant here at all".data ≠ " elephant giraffe ".data :=
  ⟨by decide, by decide, by decide⟩

/-- C8 (amended): whenever the post-processed answer fails the 50%
term-overlap validation, `_enhance_answer` replaces it by the
question-type extraction from the context when one exists, and otherwise
returns the cleaned (whitespace-stripped, legally post-processed) answer —
the answer is never discarded and validation failure is never surfaced as
an error, but the no-extraction fallback is the cleaned answer rather than
the verbatim original. -/
theorem enhance_answer_fallback (answer question context : List Char)
    (h : validate_answer_context
      (apply_legal_postprocessing (pyStrip answer) question) context =
        false) :
    (extract_answer_from_context question context = none →
      enhance_answer answer question context =
        apply_legal_postprocessing (pyStrip answer) question) ∧
    (∀ e, extract_answer_from_context question context = some e →
      enhance_answer answer question context = e) :=
  ⟨fun he => by simp [enhance_answer, h, he],
   fun e he => by simp [enhance_answer, h, he]⟩

/-- Witness for C8's amended statement: failing validation, no extraction
available, cleaned answer returned. -/
theorem enhance_answer_fallback_witness :
    validate_answer_context
      (apply_legal_postprocessing (pyStrip "unrelated zebra answers".data)
        "what does it say".data) "the contract covers rent only".data =
      false ∧
    extract_answer_from_context "what does it say".data
      "the contract covers rent only".data = none ∧
    enhance_answer "unrelated zebra answers".data "what does it say".data
        "the contract covers rent only".data =
      apply_legal_postprocessing (pyStrip "unrelated zebra answers".data)
        "what does it say".data :=
  ⟨by decide, by decide,
   (enhance_answer_fallback "unrelated zebra answers".data
     "what does it say".data "the contract covers rent only".data
     (by decide)).1 (by decide)⟩

/-! ## Words and space-joins (lemmas for the windower, C3/C10) -/

/-- `joinSp` on a cons with nonempty tail. -/
theorem joinSp_cons (s : List Char) (l : List (List Char)) (hl : l ≠ []) :
    joinSp (s :: l) = s ++ ' ' :: joinSp l := by
  cases l with
  | nil => exact absurd rfl hl
  | cons t rest => rfl

/-- `joinSp` in terms of `joinOnto`. -/
theorem joinSp_eq_joinOnto (s : List Char) (l : List (List Char)) :
    joinSp (s :: l) = s ++ joinOnto l := by
  induction l generalizing s with
  | nil => simp [joinSp, joinOnto]
  | cons t rest ih => rw [joinSp_cons s _ (by simp), ih t, joinOnto]

/-- `joinSp` distributes over appending nonempty piece lists. -/
theorem joinSp_append (A B : List (List Char)) (hA : A ≠ []) (hB : B ≠ []) :
    joinSp (A ++ B) = joinSp A ++ ' ' :: joinSp B := by
  induction A with
  | nil => exact absurd rfl hA
  | cons a A' ih =>
    cases A' with
    | nil =>
      rw [List.cons_append, List.nil_append, joinSp_cons a B hB]
      rfl
    | cons a' A'' =>
      rw [List.cons_append,
        joinSp_cons a ((a' :: A'') ++ B) (by simp),
        ih (by simp), joinSp_cons a (a' :: A'') (by simp)]
      simp

/-- A flatten of nonempty pieces is nonempty when the outer list is. -/
theorem flatten_ne_nil (LL : List (List (List Char))) (hLL : LL ≠ [])
    (h : ∀ l ∈ LL, l ≠ []) : LL.flatten ≠ [] := by
  cases LL with
  | nil => exact absurd rfl hLL
  | cons l rest =>
    have hl := h l (List.mem_cons_self l rest)
    cases l with
    | nil => exact absurd rfl hl
    | cons x xs => simp

/-- Joining sentence joins equals joining the flattened word lists. -/
theorem joinSp_map_joinSp (LL : List (List (List Char)))
    (h : ∀ l ∈ LL, l ≠ []) :
    joinSp (LL.map joinSp) = joinSp LL.flatten := by
  induction LL with
  | nil => rfl
  | cons l rest ih =>
    cases rest with
    | nil => simp [joinSp]
    | cons l' rest' =>
      have hl : l ≠ [] := h l (List.mem_cons_self _ _)
      have hrest : ∀ x ∈ l' :: rest', x ≠ [] :=
        fun x hx => h x (List.mem_cons_of_mem _ hx)
      have hfl : (l' :: rest').flatten ≠ [] :=
        flatten_ne_nil _ (by simp) hrest
      rw [List.flatten_cons, joinSp_append l _ hl hfl, List.map_cons,
        joinSp_cons _ _ (by simp), ih hrest]

/-- Processing one whitespace-free word prepends it (reversed) to the
accumulator. -/
theorem pyWordsAux_word (w rest cur : List Char)
    (hw : w.all (fun ch => !isWS ch) = true) :
    pyWordsAux cur (w ++ rest) = pyWordsAux (w.reverse ++ cur) rest := by
  induction w generalizing cur with
  | nil => simp
  | cons c w' ih =>
    simp only [List.all_cons, Bool.and_eq_true] at hw
    have hc : isWS c = false := by
      cases hws : isWS c
      · rfl
      · rw [hws] at hw; simp at hw
    rw [List.cons_append, pyWordsAux, if_neg (by simp [hc]),
      ih (c :: cur) hw.2]
    simp

/-- Python `" ".join(words).split()` recovers the words when each is
nonempty and whitespace-free. -/
theorem pyWords_joinSp (ws : List (List Char))
    (h : ∀ w ∈ ws, solidWord w = true) :
    pyWords (joinSp ws) = ws := by
  induction ws with
  | nil => rfl
  | cons w rest ih =>
    have hw := h w (List.mem_cons_self _ _)
    simp only [solidWord, Bool.and_eq_true] at hw
    have hwne : w ≠ [] := by
      intro he
      rw [he] at hw
      simp at hw
    cases rest with
    | nil =>
      have hstep := pyWordsAux_word w [] [] hw.2
      rw [List.append_nil, List.append_nil] at hstep
      show pyWordsAux [] w = [w]
      rw [hstep, pyWordsAux]
      simp [hwne]
    | cons w' rest' =>
      rw [joinSp_cons w _ (by simp)]
      show pyWordsAux [] (w ++ ' ' :: joinSp (w' :: rest')) = _
      rw [pyWordsAux_word w _ [] hw.2, List.append_nil, pyWordsAux,
        if_pos (by decide)]
      rw [if_neg (by simp [hwne]), List.reverse_reverse]
      exact congrArg (fun x => w :: x)
        (ih (fun x hx => h x (List.mem_cons_of_mem _ hx)))

/-! ## Sentence-scanner lemmas (for C3/C10) -/

/-- An upper-case letter is not whitespace. -/
theorem upper_not_ws (c : Char) (h : isUpperCh c = true) : isWS c = false := by
  cases hws : isWS c
  · rfl
  · exfalso
    simp only [isWS, Bool.or_eq_true, decide_eq_true_eq] at hws
    rcases hws with ((((rfl | rfl) | rfl) | rfl) | rfl) | rfl <;>
      exact absurd h (by decide)

/-- An upper-case letter is not sentence punctuation. -/
theorem upper_not_punct (c : Char) (h : isUpperCh c = true) :
    isPunctCh c = false := by
  cases hp : isPunctCh c
  · rfl
  · exfalso
    simp only [isPunctCh, Bool.or_eq_true, decide_eq_true_eq] at hp
    rcases hp with (rfl | rfl) | rfl <;> exact absurd h (by decide)

/-- The last element is a member. -/
theorem getLast_mem_of_eq :
    ∀ (l : List Char) (a : Char), l.getLast? = some a → a ∈ l
  | [], a, h => by simp at h
  | [b], a, h => by
    simp only [List.getLast?_singleton, Option.some_inj] at h
    simp [h]
  | b :: c :: t, a, h => by
    rw [List.getLast?_cons_cons] at h
    exact List.mem_cons_of_mem b (getLast_mem_of_eq (c :: t) a h)

/-- The last element of `l ++ [a]` is `a`. -/
theorem getLast_concat_eq :
    ∀ (l : List Char) (a : Char), (l ++ [a]).getLast? = some a
  | [], a => rfl
  | [b], a => rfl
  | b :: c :: t, a => by
    rw [List.cons_append, List.cons_append, List.getLast?_cons_cons,
      ← List.cons_append]
    exact getLast_concat_eq (c :: t) a

/-- A punctuation-free accumulator does not end in punctuation. -/
theorem endsPunct_false (cur : List Char)
    (h : cur.all (fun ch => !isPunctCh ch) = true) :
    (match cur.getLast? with
     | some d => isPunctCh d
     | none => false) = false := by
  cases hl : cur.getLast? with
  | none => rfl
  | some d =>
    have hmem : d ∈ cur := getLast_mem_of_eq cur d hl
    have := List.all_eq_true.mp h d hmem
    simpa using this

/-- Decompose a good sentence into its head letter and tail. -/
theorem goodSent_parts (s : List Char) (h : goodSent s = true) :
    ∃ c t, s = c :: t ∧ isUpperCh c = true ∧ isPunctCh c = false ∧
      t ≠ [] ∧ t.getLast? = some '.' ∧
      t.dropLast.all (fun ch => !isPunctCh ch) = true := by
  cases s with
  | nil => simp [goodSent] at h
  | cons c t =>
    simp only [goodSent, Bool.and_eq_true, Bool.not_eq_true',
      beq_iff_eq] at h
    obtain ⟨⟨⟨⟨h1, h2⟩, h3⟩, h4⟩, h5⟩ := h
    refine ⟨c, t, rfl, h1, h2, ?_, h4, h5⟩
    intro he
    subst he
    simp at h3

/-- A good sentence's characters before the final period are
punctuation-free. -/
theorem goodSent_dropLast (s : List Char) (h : goodSent s = true) :
    s.dropLast.all (fun ch => !isPunctCh ch) = true := by
  obtain ⟨c, t, rfl, _, hcp, ht, _, hall⟩ := goodSent_parts s h
  cases t with
  | nil => exact absurd rfl ht
  | cons b u =>
    rw [List.dropLast_cons₂, List.all_cons]
    simp only [hcp, Bool.not_false, Bool.true_and]
    exact hall

/-- A good sentence ends with a period. -/
theorem goodSent_getLast (s : List Char) (h : goodSent s = true) :
    s.getLast? = some '.' := by
  obtain ⟨c, t, rfl, _, _, ht, hlast, _⟩ := goodSent_parts s h
  cases t with
  | nil => exact absurd rfl ht
  | cons b u => rw [List.getLast?_cons_cons]; exact hlast

/-- A good sentence is nonempty. -/
theorem goodSent_ne_nil (s : List Char) (h : goodSent s = true) :
    s ≠ [] := by
  obtain ⟨c, t, rfl, _⟩ := goodSent_parts s h
  simp

/-- One scanner step with no pending whitespace (definitional). -/
theorem splitSentAux_step0 (cur : List Char) (c : Char) (cs : List Char) :
    splitSentAux cur [] (c :: cs) =
      if isWS c && (match cur.getLast? with
          | some d => isPunctCh d
          | none => false) then splitSentAux cur [c] cs
      else splitSentAux (cur ++ [c]) [] cs := rfl

/-- One scanner step with pending whitespace (definitional). -/
theorem splitSentAux_step1 (cur : List Char) (p : Char) (ps : List Char)
    (c : Char) (cs : List Char) :
    splitSentAux cur (p :: ps) (c :: cs) =
      if isWS c then splitSentAux cur ((p :: ps) ++ [c]) cs
      else if isUpperCh c then cur :: splitSentAux [c] [] cs
      else splitSentAux (cur ++ (p :: ps) ++ [c]) [] cs := rfl

/-- Scanning a punctuation-free chunk only accumulates it. -/
theorem splitSent_plain (chunk : List Char) :
    ∀ (cur rest : List Char),
      chunk.all (fun ch => !isPunctCh ch) = true →
      cur.all (fun ch => !isPunctCh ch) = true →
      splitSentAux cur [] (chunk ++ rest) =
        splitSentAux (cur ++ chunk) [] rest := by
  induction chunk with
  | nil => intro cur rest _ _; simp
  | cons c chunk' ih =>
    intro cur rest hch hcur
    simp only [List.all_cons, Bool.and_eq_true] at hch
    have hcond : (isWS c && (match cur.getLast? with
        | some d => isPunctCh d
        | none => false)) = false := by
      rw [endsPunct_false cur hcur]
      simp
    rw [List.cons_append, splitSentAux_step0, if_neg (by simp [hcond])]
    have hcur' : (cur ++ [c]).all (fun ch => !isPunctCh ch) = true := by
      rw [List.all_append]
      simp only [hcur, List.all_cons, List.all_nil, hch.1, Bool.and_true,
        Bool.true_and]
    rw [ih (cur ++ [c]) rest hch.2 hcur']
    simp

/-- Scanning good sentences separated by single spaces recovers exactly
those sentences (with the accumulated prefix attached to the first). -/
theorem splitSent_sentences (L : List (List Char))
    (hL : ∀ s ∈ L, goodSent s = true) :
    ∀ (cur rem : List Char),
      cur.all (fun ch => !isPunctCh ch) = true →
      rem ≠ [] →
      rem.getLast? = some '.' →
      rem.dropLast.all (fun ch => !isPunctCh ch) = true →
      splitSentAux cur [] (rem ++ joinOnto L) = (cur ++ rem) :: L := by
  induction L with
  | nil =>
    intro cur rem hcur hne hlast hdrop
    have hsplit : rem.dropLast ++ ['.'] = rem :=
      List.dropLast_append_getLast? '.' hlast
    rw [joinOnto, List.append_nil]
    conv_lhs => rw [← hsplit]
    rw [splitSent_plain rem.dropLast cur ['.'] hdrop hcur]
    rw [splitSentAux_step0, if_neg (by
      intro hcontra
      rw [Bool.and_eq_true] at hcontra
      exact absurd hcontra.1 (by decide))]
    rw [splitSentAux]
    rw [List.append_nil, List.append_assoc, hsplit]
  | cons s L' ih =>
    intro cur rem hcur hne hlast hdrop
    obtain ⟨c₀, t, rfl, hup, hcp, htne, htlast, htdrop⟩ :=
      goodSent_parts s (hL s (List.mem_cons_self _ _))
    have hsplit : rem.dropLast ++ ['.'] = rem :=
      List.dropLast_append_getLast? '.' hlast
    have hstep : rem ++ joinOnto ((c₀ :: t) :: L') =
        rem.dropLast ++ ('.' :: ' ' :: (c₀ :: (t ++ joinOnto L'))) := by
      conv_lhs => rw [← hsplit]
      simp [joinOnto]
    rw [hstep]
    rw [splitSent_plain rem.dropLast cur _ hdrop hcur]
    rw [splitSentAux_step0, if_neg (by
      intro hcontra
      rw [Bool.and_eq_true] at hcontra
      exact absurd hcontra.1 (by decide))]
    rw [splitSentAux_step0, if_pos (by
      rw [getLast_concat_eq]
      decide)]
    rw [splitSentAux_step1, if_neg (by
      rw [upper_not_ws c₀ hup]
      exact Bool.false_ne_true), if_pos hup]
    have hcall := ih (fun x hx => hL x (List.mem_cons_of_mem _ hx))
      [c₀] t (by simp [upper_not_punct c₀ hup]) htne htlast htdrop
    rw [hcall]
    rw [List.append_assoc, hsplit]
    rfl

/-- One normalization step with an empty buffer (definitional). -/
theorem normAux_step0 (c : Char) (cs : List Char) :
    normAux [] (c :: cs) =
      if isPunctCh c then normAux [c] cs else c :: normAux [] cs := rfl

/-- One normalization step with a buffered punctuation run
(definitional). -/
theorem normAux_step1 (p : Char) (ws : List Char) (c : Char)
    (cs : List Char) :
    normAux (p :: ws) (c :: cs) =
      if isWS c then normAux (p :: (ws ++ [c])) cs
      else if isUpperCh c then p :: ' ' :: c :: normAux [] cs
      else if isPunctCh c then (p :: ws) ++ normAux [c] cs
      else (p :: ws) ++ c :: normAux [] cs := rfl

/-- The substitution scanner passes punctuation-free chunks through. -/
theorem normAux_plain (chunk : List Char) :
    ∀ rest : List Char,
      chunk.all (fun ch => !isPunctCh ch) = true →
      normAux [] (chunk ++ rest) = chunk ++ normAux [] rest := by
  induction chunk with
  | nil => intro rest _; simp
  | cons c chunk' ih =>
    intro rest hch
    simp only [List.all_cons, Bool.and_eq_true] at hch
    have hc : isPunctCh c = false := by simpa using hch.1
    rw [List.cons_append, normAux_step0, if_neg (by simp [hc]),
      ih rest hch.2, List.cons_append]

/-- The substitution `([.!?])\s*([A-Z]) -> \1 \2` is the identity on a
text made of good sentences joined by single spaces. -/
theorem normAux_sentences (L : List (List Char))
    (hL : ∀ s ∈ L, goodSent s = true) :
    ∀ rem : List Char,
      rem ≠ [] →
      rem.getLast? = some '.' →
      rem.dropLast.all (fun ch => !isPunctCh ch) = true →
      normAux [] (rem ++ joinOnto L) = rem ++ joinOnto L := by
  induction L with
  | nil =>
    intro rem hne hlast hdrop
    have hsplit : rem.dropLast ++ ['.'] = rem :=
      List.dropLast_append_getLast? '.' hlast
    rw [joinOnto, List.append_nil]
    conv_lhs => rw [← hsplit]
    rw [normAux_plain rem.dropLast ['.'] hdrop]
    rw [normAux_step0, if_pos (by decide)]
    rw [normAux]
    exact hsplit
  | cons s L' ih =>
    intro rem hne hlast hdrop
    obtain ⟨c₀, t, rfl, hup, hcp, htne, htlast, htdrop⟩ :=
      goodSent_parts s (hL s (List.mem_cons_self _ _))
    have hsplit : rem.dropLast ++ ['.'] = rem :=
      List.dropLast_append_getLast? '.' hlast
    have hstep : rem ++ joinOnto ((c₀ :: t) :: L') =
        rem.dropLast ++ ('.' :: ' ' :: (c₀ :: (t ++ joinOnto L'))) := by
      conv_lhs => rw [← hsplit]
      simp [joinOnto]
    rw [hstep]
    rw [normAux_plain rem.dropLast _ hdrop]
    rw [normAux_step0, if_pos (by decide)]
    rw [normAux_step1, if_pos (by decide)]
    rw [normAux_step1, if_neg (by
      rw [upper_not_ws c₀ hup]
      exact Bool.false_ne_true), if_pos hup]
    rw [ih (fun x hx => hL x (List.mem_cons_of_mem _ hx)) t htne htlast
      htdrop]

/-- `strip` is the identity on a string with non-whitespace first and last
characters. -/
theorem pyStrip_eq_self (c : Char) (t : List Char) (d : Char)
    (hc : isWS c = false) (hd : (c :: t).getLast? = some d)
    (hdws : isWS d = false) : pyStrip (c :: t) = c :: t := by
  unfold pyStrip
  rw [List.dropWhile_cons, if_neg (by simp [hc])]
  have hrev : (c :: t).reverse = d :: ((c :: t).dropLast).reverse := by
    conv_lhs => rw [← List.dropLast_append_getLast? d hd]
    rw [List.reverse_append]
    rfl
  rw [hrev, List.dropWhile_cons, if_neg (by simp [hdws]), ← hrev,
    List.reverse_reverse]

/-- A good sentence is stripped to itself. -/
theorem pyStrip_goodSent (s : List Char) (h : goodSent s = true) :
    pyStrip s = s := by
  obtain ⟨c, t, rfl, hup, _, htne, htlast, _⟩ := goodSent_parts s h
  have hlast : (c :: t).getLast? = some '.' := goodSent_getLast _ h
  exact pyStrip_eq_self c t '.' (upper_not_ws c hup) hlast (by decide)

/-- The cleanup loop keeps tame sentences verbatim. -/
theorem cleanSentences_tame (raws : List (List Char))
    (h : ∀ s ∈ raws, tameSent s = true) :
    cleanSentences raws = raws := by
  have haux : ∀ (rs : List (List Char)) (acc : List (List Char)),
      (∀ s ∈ rs, tameSent s = true) →
      rs.foldl (fun acc s =>
        let t := pyStrip s
        if 10 < t.length then
          if isAbbrevStart t then
            match acc.getLast? with
            | some prev => acc.dropLast ++ [prev ++ ' ' :: t]
            | none => [t]
          else acc ++ [t]
        else acc) acc = acc ++ rs := by
    intro rs
    induction rs with
    | nil => intro acc _; simp
    | cons s rs' ih =>
      intro acc hall
      have hs := hall s (List.mem_cons_self _ _)
      simp only [tameSent, Bool.and_eq_true, Bool.not_eq_true',
        decide_eq_true_eq] at hs
      obtain ⟨⟨hgood, hlen⟩, habbr⟩ := hs
      have hstrip : pyStrip s = s := pyStrip_goodSent s hgood
      rw [List.foldl_cons]
      simp only [hstrip]
      rw [if_pos (by exact_mod_cast hlen), if_neg (by simp [habbr])]
      rw [ih (acc ++ [s]) (fun x hx => hall x (List.mem_cons_of_mem _ hx))]
      simp
  unfold cleanSentences
  rw [haux raws [] h]
  simp

/-- `_split_into_sentences` recovers exactly the sentences of a text made
of tame sentences joined by single spaces. -/
theorem split_into_sentences_joinSp (L : List (List Char)) (hne : L ≠ [])
    (h : ∀ s ∈ L, tameSent s = true) :
    split_into_sentences (joinSp L) = L := by
  have hgood : ∀ s ∈ L, goodSent s = true := by
    intro s hs
    have := h s hs
    simp only [tameSent, Bool.and_eq_true] at this
    exact this.1.1
  cases L with
  | nil => exact absurd rfl hne
  | cons s L' =>
    have hs := hgood s (List.mem_cons_self _ _)
    obtain ⟨c₀, t, rfl, hup, hcp, htne, htlast, htdrop⟩ :=
      goodSent_parts s hs
    have hdrop : (c₀ :: t).dropLast.all (fun ch => !isPunctCh ch) = true :=
      goodSent_dropLast _ hs
    have hlast : (c₀ :: t).getLast? = some '.' := goodSent_getLast _ hs
    have hjoin : joinSp ((c₀ :: t) :: L') = (c₀ :: t) ++ joinOnto L' :=
      joinSp_eq_joinOnto _ _
    have hnorm : normAux [] ((c₀ :: t) ++ joinOnto L') =
        (c₀ :: t) ++ joinOnto L' :=
      normAux_sentences L' (fun x hx => hgood x (List.mem_cons_of_mem _ hx))
        (c₀ :: t) (by simp) hlast hdrop
    have hsplit : splitSentAux [] [] ((c₀ :: t) ++ joinOnto L') =
        (c₀ :: t) :: L' := by
      have := splitSent_sentences L'
        (fun x hx => hgood x (List.mem_cons_of_mem _ hx))
        [] (c₀ :: t) (by simp) (by simp) hlast hdrop
      simpa using this
    have hclean : cleanSentences ((c₀ :: t) :: L') = (c₀ :: t) :: L' :=
      cleanSentences_tame _ h
    simp only [split_into_sentences]
    rw [hjoin, hnorm, hsplit, hclean]
    simp

/-! ## Facts about the concrete documents -/

/-- Every sentence of `docSents` is one of the two fixed sentences. -/
theorem docSents_mem (n m : Nat) (s : List Char)
    (h : s ∈ docSents n m) : s = sentS ∨ s = sentU := by
  unfold docSents at h
  rcases List.mem_append.mp h with h1 | h2
  · exact Or.inl (List.eq_of_mem_replicate h1)
  · exact Or.inr (List.eq_of_mem_replicate h2)

/-- Both fixed sentences are tame. -/
theorem tameSent_sentS : tameSent sentS = true := by decide

/-- The tail sentence is tame as well. -/
theorem tameSent_sentU : tameSent sentU = true := by decide

/-- All sentences of any `docSents` are tame. -/
theorem docSents_tame (n m : Nat) :
    ∀ s ∈ docSents n m, tameSent s = true := by
  intro s hs
  rcases docSents_mem n m s hs with rfl | rfl
  · exact tameSent_sentS
  · exact tameSent_sentU

/-- `docSents` is nonempty when `n ≥ 1`. -/
theorem docSents_ne_nil (n m : Nat) (hn : 1 ≤ n) : docSents n m ≠ [] := by
  unfold docSents
  cases n with
  | zero => omega
  | succ k => simp [List.replicate_succ]

/-- Length of `docSents`. -/
theorem docSents_length (n m : Nat) : (docSents n m).length = n + m := by
  unfold docSents
  simp

/-- The sentence splitter recovers the sentences of a joined
`docSents`. -/
theorem split_docSents (n m : Nat) (hn : 1 ≤ n) :
    split_into_sentences (joinSp (docSents n m)) = docSents n m :=
  split_into_sentences_joinSp (docSents n m) (docSents_ne_nil n m hn)
    (docSents_tame n m)

/-- `docSents` as a map of `joinSp` over the word lists. -/
theorem docSents_eq_map (n m : Nat) :
    docSents n m =
      (List.replicate n sentSW ++ List.replicate m sentUW).map joinSp := by
  unfold docSents sentS sentU
  rw [List.map_append, List.map_replicate, List.map_replicate]

/-- The words of a joined `docSents` are the flattened word lists. -/
theorem pyWords_docSents (n m : Nat) :
    pyWords (joinSp (docSents n m)) =
      (List.replicate n sentSW ++ List.replicate m sentUW).flatten := by
  rw [docSents_eq_map n m, joinSp_map_joinSp, pyWords_joinSp]
  · intro w hw
    obtain ⟨l, hl, hwl⟩ := List.mem_flatten.mp hw
    rcases List.mem_append.mp hl with h1 | h2
    · rw [List.eq_of_mem_replicate h1] at hwl
      have hall : ∀ x ∈ sentSW, solidWord x = true := by decide
      exact hall w hwl
    · rw [List.eq_of_mem_replicate h2] at hwl
      have hall : ∀ x ∈ sentUW, solidWord x = true := by decide
      exact hall w hwl
  · intro l hl
    rcases List.mem_append.mp hl with h1 | h2
    · rw [List.eq_of_mem_replicate h1]
      decide
    · rw [List.eq_of_mem_replicate h2]
      decide

/-- Length of the flatten of a replicated list. -/
theorem flatten_replicate_length {α : Type} (n : Nat) (l : List α) :
    ((List.replicate n l).flatten).length = n * l.length := by
  induction n with
  | zero => simp
  | succ k ih =>
    rw [List.replicate_succ, List.flatten_cons, List.length_append, ih]
    ring

/-- Taking a whole number of copies from the flatten of a replicated
list. -/
theorem take_flatten_replicate {α : Type} (k n : Nat) (l : List α)
    (h : k ≤ n) :
    ((List.replicate n l).flatten).take (k * l.length) =
      (List.replicate k l).flatten := by
  induction k generalizing n with
  | zero => simp
  | succ j ih =>
    cases n with
    | zero => omega
    | succ n' =>
      rw [List.replicate_succ, List.flatten_cons,
        List.take_append_eq_append_take]
      have h1 : l.length ≤ (j + 1) * l.length := by
        have := mul_le_mul_right' (show 1 ≤ j + 1 by omega) l.length
        simpa using this
      rw [List.take_of_length_le h1]
      have h2 : (j + 1) * l.length - l.length = j * l.length := by
        rw [Nat.succ_mul]
        omega
      rw [h2, ih n' (by omega), List.replicate_succ, List.flatten_cons]

/-- The head/middle/tail slice selection of `_handle_long_documents` is
the identity: `first_end = middle_start` and `middle_end = last_start`, so
the three slices partition the sentence list. -/
theorem key_slices_eq_self (L : List (List Char)) : key_slices L = L := by
  unfold key_slices
  have hle : L.length * 2 / 5 ≤ L.length * 3 / 5 :=
    Nat.div_le_div_right (by omega)
  rw [List.append_assoc]
  have hdrop : L.drop (L.length * 3 / 5) =
      (L.drop (L.length * 2 / 5)).drop
        (L.length * 3 / 5 - L.length * 2 / 5) := by
    rw [List.drop_drop]
    congr 1
    omega
  rw [hdrop, List.take_append_drop, List.take_append_drop]

/-- Dropping a prefix's length drops exactly that prefix. -/
theorem drop_length_append {α : Type} (l₁ l₂ : List α) :
    (l₁ ++ l₂).drop l₁.length = l₂ := by
  simp

/-- The words of `bigDoc`. -/
theorem pyWords_bigDoc :
    pyWords bigDoc =
      (List.replicate 1000 sentSW ++ List.replicate 500 sentUW).flatten :=
  pyWords_docSents 1000 500

/-- The flattened word lists of `bigDoc` count 18000 words. -/
theorem flatten_big_length :
    ((List.replicate 1000 sentSW ++
        List.replicate 500 sentUW).flatten).length = 18000 := by
  rw [List.flatten_append, List.length_append, flatten_replicate_length,
    flatten_replicate_length]
  rfl

/-- `bigDoc` has 18000 words. -/
theorem pyWords_bigDoc_length : (pyWords bigDoc).length = 18000 := by
  rw [pyWords_bigDoc, flatten_big_length]

/-- The sentences of `bigDoc`. -/
theorem split_bigDoc : split_into_sentences bigDoc = docSents 1000 500 :=
  split_docSents 1000 500 (by omega)

/-- The first 9600 words of `bigDoc` are exactly 800 copies of the body
sentence's words. -/
theorem take_9600_flatten :
    ((List.replicate 1000 sentSW ++
        List.replicate 500 sentUW).flatten).take 9600 =
      (List.replicate 800 sentSW).flatten := by
  rw [List.flatten_append, List.take_append_eq_append_take]
  have hlen : ((List.replicate 1000 sentSW).flatten).length = 12000 := by
    rw [flatten_replicate_length]
    rfl
  rw [hlen, show (9600 : Nat) - 12000 = 0 from rfl, List.take_zero,
    List.append_nil,
    show (9600 : Nat) = 800 * sentSW.length from rfl,
    take_flatten_replicate 800 1000 sentSW (by omega)]

/-- What the windower returns on `bigDoc`: the first 800 (of 1500)
sentences. -/
theorem handle_bigDoc :
    handle_long_documents bigDoc = joinSp (List.replicate 800 sentS) := by
  simp only [handle_long_documents]
  rw [if_neg (by rw [pyWords_bigDoc_length]; omega)]
  rw [split_bigDoc]
  rw [if_neg (by rw [docSents_length]; omega)]
  rw [key_slices_eq_self]
  rw [pyWords_docSents]
  rw [if_pos (by rw [flatten_big_length]; omega)]
  rw [take_9600_flatten]
  rw [← joinSp_map_joinSp (List.replicate 800 sentSW) (by
    intro l hl
    rw [List.eq_of_mem_replicate hl]
    decide)]
  rw [List.map_replicate]
  rfl

/-- The sentences of the windower's output on `bigDoc`. -/
theorem split_handle_bigDoc :
    split_into_sentences (handle_long_documents bigDoc) =
      List.replicate 800 sentS := by
  rw [handle_bigDoc]
  have hd : docSents 800 0 = List.replicate 800 sentS := by
    unfold docSents
    rw [List.replicate_zero, List.append_nil]
  have h := split_docSents 800 0 (by omega)
  rw [hd] at h
  exact h

/-- The windower's output on `bigDoc` is not the concatenation of the
selected slices: truncation shortened it. -/
theorem handle_bigDoc_ne :
    handle_long_documents bigDoc ≠
      joinSp (key_slices (split_into_sentences bigDoc)) := by
  rw [handle_bigDoc, split_bigDoc, key_slices_eq_self]
  intro he
  have hdec : docSents 1000 500 =
      List.replicate 800 sentS ++
        (List.replicate 200 sentS ++ List.replicate 500 sentU) := by
    unfold docSents
    rw [← List.append_assoc, ← List.replicate_add]
  have h800 : (List.replicate 800 sentS : List (List Char)) ≠ [] := by
    apply List.ne_nil_of_length_pos
    rw [List.length_replicate]
    omega
  have hB : (List.replicate 200 sentS ++ List.replicate 500 sentU :
      List (List Char)) ≠ [] := by
    apply List.ne_nil_of_length_pos
    rw [List.length_append, List.length_replicate, List.length_replicate]
    omega
  rw [hdec, joinSp_append _ _ h800 hB] at he
  have hlen := congrArg List.length he
  rw [List.length_append, List.length_cons] at hlen
  omega

/-- The last third of `bigDoc`'s sentences: all copies of the tail
sentence. -/
theorem bigDoc_lastthird :
    (split_into_sentences bigDoc).drop
        (2 * (split_into_sentences bigDoc).length / 3) =
      List.replicate 500 sentU := by
  rw [split_bigDoc, docSents_length]
  rw [show 2 * (1000 + 500) / 3 = 1000 by norm_num]
  unfold docSents
  have h := drop_length_append (List.replicate 1000 sentS)
    (List.replicate 500 sentU)
  rwa [List.length_replicate] at h

/-! ## C10 — the slice selection is the identity; reduction only by tail
truncation -/

/-- C10: For every text with at least 10 sentences, the three slices
`[0, 0.4n)`, `[0.4n, 0.6n)`, `[0.6n, n)` selected by the windower together
contain every sentence exactly once in order (first conjunct: the
selection is the identity on the sentence list), so the windower either
returns the text unchanged, or the space-join of all its sentences, or
that join truncated to its first 9600 words (second conjunct); the third
conjunct records that the truncation splits the word list into the kept
prefix and the dropped tail, i.e. material is dropped exclusively from the
tail. -/
theorem handle_long_documents_selection_identity (text : List Char)
    (h10 : 10 ≤ (split_into_sentences text).length) :
    key_slices (split_into_sentences text) = split_into_sentences text ∧
    (handle_long_documents text = text ∨
     handle_long_documents text = joinSp (split_into_sentences text) ∨
     handle_long_documents text =
       joinSp ((pyWords (joinSp (split_into_sentences text))).take 9600)) ∧
    (pyWords (joinSp (split_into_sentences text))).take 9600 ++
        (pyWords (joinSp (split_into_sentences text))).drop 9600 =
      pyWords (joinSp (split_into_sentences text)) := by
  refine ⟨key_slices_eq_self _, ?_, List.take_append_drop _ _⟩
  simp only [handle_long_documents]
  by_cases hw : (pyWords text).length ≤ 9600
  · rw [if_pos hw]
    exact Or.inl rfl
  · rw [if_neg hw,
      if_neg (show ¬(split_into_sentences text).length < 10 by omega)]
    rw [key_slices_eq_self]
    by_cases hcomb :
        9600 < (pyWords (joinSp (split_into_sentences text))).length
    · rw [if_pos hcomb]
      exact Or.inr (Or.inr rfl)
    · rw [if_neg hcomb]
      exact Or.inr (Or.inl rfl)

/-- Witness for C10 on the 11-sentence `smallDoc`. -/
theorem handle_long_documents_selection_identity_witness :
    10 ≤ (split_into_sentences smallDoc).length ∧
    (key_slices (split_into_sentences smallDoc) =
        split_into_sentences smallDoc ∧
     (handle_long_documents smallDoc = smallDoc ∨
      handle_long_documents smallDoc =
        joinSp (split_into_sentences smallDoc) ∨
      handle_long_documents smallDoc =
        joinSp
          ((pyWords (joinSp (split_into_sentences smallDoc))).take 9600)) ∧
     (pyWords (joinSp (split_into_sentences smallDoc))).take 9600 ++
         (pyWords (joinSp (split_into_sentences smallDoc))).drop 9600 =
       pyWords (joinSp (split_into_sentences smallDoc))) := by
  have hsplit : split_into_sentences smallDoc = docSents 10 1 :=
    split_docSents 10 1 (by omega)
  have h10 : 10 ≤ (split_into_sentences smallDoc).length := by
    rw [hsplit, docSents_length]
    omega
  exact ⟨h10, handle_long_documents_selection_identity smallDoc h10⟩

/-! ## C3 — the windowing step on over-budget documents -/

/-- Counterexample to C3 as stated: `bigDoc` exceeds the input budget
(18000 > 9600 words) and has 1500 ≥ 10 sentences, yet the windower's
result is not the in-order concatenation of the three selected slices
(truncation shortened it), and no sentence of the document's last third
(by count) appears among the result's sentences — the final ~40% slice is
selected but then entirely truncated away. -/
theorem handle_long_documents_counterexample :
    9600 < (pyWords bigDoc).length ∧
    10 ≤ (split_into_sentences bigDoc).length ∧
    handle_long_documents bigDoc ≠
      joinSp (key_slices (split_into_sentences bigDoc)) ∧
    ∀ s ∈ (split_into_sentences bigDoc).drop
        (2 * (split_into_sentences bigDoc).length / 3),
      s ∉ split_into_sentences (handle_long_documents bigDoc) := by
  refine ⟨by rw [pyWords_bigDoc_length]; omega,
    by rw [split_bigDoc, docSents_length]; omega,
    handle_bigDoc_ne, ?_⟩
  intro s hs hmem
  rw [bigDoc_lastthird] at hs
  rw [split_handle_bigDoc] at hmem
  rw [List.eq_of_mem_replicate hs] at hmem
  have heq : sentU = sentS := List.eq_of_mem_replicate hmem
  exact absurd heq (by decide)

/-- C3 (amended): a document within the 9600-word budget, or with fewer
than 10 sentences, is returned unmodified; an over-budget document with at
least 10 sentences has the head/middle/tail slices selected — which
together are all its sentences in original order — their join returned
when within budget, and otherwise the join truncated to its first 9600
words, which can drop the tail (including the entire final ~40% slice). -/
theorem handle_long_documents_amended (text : List Char) :
    ((pyWords text).length ≤ 9600 → handle_long_documents text = text) ∧
    ((split_into_sentences text).length < 10 →
      handle_long_documents text = text) ∧
    (9600 < (pyWords text).length →
      10 ≤ (split_into_sentences text).length →
      key_slices (split_into_sentences text) = split_into_sentences text ∧
      ((pyWords (joinSp (split_into_sentences text))).length ≤ 9600 →
        handle_long_documents text =
          joinSp (split_into_sentences text)) ∧
      (9600 < (pyWords (joinSp (split_into_sentences text))).length →
        handle_long_documents text =
          joinSp
            ((pyWords (joinSp (split_into_sentences text))).take 9600))) := by
  refine ⟨fun hw => ?_, fun hs => ?_, fun hw h10 => ?_⟩
  · simp only [handle_long_documents]
    rw [if_pos hw]
  · simp only [handle_long_documents]
    by_cases hw : (pyWords text).length ≤ 9600
    · rw [if_pos hw]
    · rw [if_neg hw, if_pos hs]
  · refine ⟨key_slices_eq_self _, fun hcomb => ?_, fun hcomb => ?_⟩
    · simp only [handle_long_documents]
      rw [if_neg (by omega),
        if_neg (show ¬(split_into_sentences text).length < 10 by omega),
        key_slices_eq_self, if_neg (by omega)]
    · simp only [handle_long_documents]
      rw [if_neg (by omega),
        if_neg (show ¬(split_into_sentences text).length < 10 by omega),
        key_slices_eq_self, if_pos hcomb]

/-- Witness for C3's amended statement on `bigDoc` (truncation branch). -/
theorem handle_long_documents_amended_witness :
    9600 < (pyWords bigDoc).length ∧
    10 ≤ (split_into_sentences bigDoc).length ∧
    9600 < (pyWords (joinSp (split_into_sentences bigDoc))).length ∧
    key_slices (split_into_sentences bigDoc) =
      split_into_sentences bigDoc ∧
    handle_long_documents bigDoc =
      joinSp ((pyWords (joinSp (split_into_sentences bigDoc))).take 9600) := by
  have hA : 9600 < (pyWords bigDoc).length := by
    rw [pyWords_bigDoc_length]
    omega
  have hB : 10 ≤ (split_into_sentences bigDoc).length := by
    rw [split_bigDoc, docSents_length]
    omega
  have hC : 9600 < (pyWords (joinSp (split_into_sentences bigDoc))).length := by
    rw [split_bigDoc, pyWords_docSents, flatten_big_length]
    omega
  exact ⟨hA, hB, hC,
    ((handle_long_documents_amended bigDoc).2.2 hA hB).1,
    ((handle_long_documents_amended bigDoc).2.2 hA hB).2.2 hC⟩
